import Mathlib

/-!
Verification of the reconciliation and positional-decoding core of the
genshin-impact-api spiders repository.

The Python sources are shallowly embedded as executable Lean definitions:

* Python `dict` values become association lists (`List (String × α)`); Python
  dict assignment is `dictInsert` (update in place on an existing key, append
  otherwise).  A Python dict never holds a key twice, so the maps produced by
  the code are those whose key list is `Nodup` (`WFAttrs`, `WFInfoMap`).
* fallible Python code (IndexError, KeyError, ValueError, AttributeError)
  becomes `Except String`.
* the local-timezone conversion `time.mktime` is an effect of the executing
  host; it enters the model as an explicit parameter `mk : Nat → Nat → Nat → Int`
  taking the validated year, month and day of a parsed release date.
-/

/-- Keys of an association list, in order of appearance
(`list(d.keys())`). -/
def dictKeys {α : Type} (m : List (String × α)) : List String := m.map Prod.fst

/-- Python dict assignment `d[k] = v`: if `k` is already a key the stored value
is replaced in place, otherwise the pair is appended at the end. -/
def dictInsert {α : Type} (d : List (String × α)) (k : String) (v : α) :
    List (String × α) :=
  if k ∈ dictKeys d then d.map (fun p => if p.1 = k then (k, v) else p)
  else d ++ [(k, v)]

/-- `for k, v in src.items(): d[k] = v` — fold Python dict assignment over the
entries of `src`, starting from `d`. -/
def dictUpdateAll {α : Type} (d src : List (String × α)) : List (String × α) :=
  src.foldl (fun acc p => dictInsert acc p.1 p.2) d

/-- Attribute map of one entity record (inner Python dict). -/
abbrev Attrs := List (String × String)

/-- Two-level record map: entity key to attribute map (outer Python dict). -/
abbrev InfoMap := List (String × Attrs)

/-- An association list models a Python dict only when no key repeats. -/
def WFAttrs (a : Attrs) : Prop := (dictKeys a).Nodup

/-- Well-formed two-level map: outer keys distinct and every inner map
well-formed. -/
def WFInfoMap (m : InfoMap) : Prop :=
  (dictKeys m).Nodup ∧ ∀ p ∈ m, WFAttrs p.2

instance : DecidablePred WFAttrs := fun a =>
  inferInstanceAs (Decidable ((dictKeys a).Nodup))

instance : DecidablePred WFInfoMap := fun _ =>
  inferInstanceAs (Decidable (_ ∧ _))

/-- `key_superset = set(list(first.keys()) + list(second.keys()))` from
`_merge_by_dict_key`.  Python iterates a set in an unspecified order; we fix
the canonical order "keys of `a`, then the new keys of `b`" and state every
theorem through `List.lookup`, which is independent of this choice. -/
def keyUnion (a b : List String) : List String :=
  a ++ b.filter (fun k => decide (k ∉ a))

/-- Per-key body of `_merge_by_dict_key`: start from an empty dict, copy the
attributes of `first[key]` when the key is present, then overlay the
attributes of `second[key]` when present. -/
def mergeValueFor (first second : InfoMap) (key : String) : Attrs :=
  dictUpdateAll (dictUpdateAll [] ((first.lookup key).getD []))
    ((second.lookup key).getD [])

/-- `_merge_by_dict_key` from `character_info_cn.py` (lines 166-235): the result
is keyed by the union of the two key sets and each value is built by copying
`first[key]` then overlaying `second[key]`. -/
def _merge_by_dict_key (first second : InfoMap) : InfoMap :=
  (keyUnion (dictKeys first) (dictKeys second)).map
    (fun k => (k, mergeValueFor first second k))

/-- Value stored at attribute `a` of the record at key `k`, when both exist. -/
def valueAt (m : InfoMap) (k a : String) : Option String :=
  (m.lookup k).bind (fun v => v.lookup a)

/-- Observational equality of two-level maps: same key set and the same stored
value at every key/attribute pair.  This is exactly what Python `==` compares
on nested dicts, where entry order is not observable. -/
def infoMapEquiv (m n : InfoMap) : Prop :=
  (∀ k, (m.lookup k).isSome = (n.lookup k).isSome) ∧
    ∀ k a, valueAt m k a = valueAt n k a

section DictLemmas

variable {α : Type}

theorem lookup_cons' (a : String) (p : String × α) (t : List (String × α)) :
    ((p :: t).lookup a) = if a = p.1 then some p.2 else t.lookup a := by
  obtain ⟨k, v⟩ := p
  by_cases h : a = k
  · subst h
    simp [List.lookup_cons]
  · simp [List.lookup_cons, beq_false_of_ne h, h]

theorem lookup_eq_none_iff (a : String) (l : List (String × α)) :
    l.lookup a = none ↔ a ∉ dictKeys l := by
  induction l with
  | nil => simp [dictKeys]
  | cons p t ih =>
    rw [lookup_cons']
    by_cases h : a = p.1
    · simp [h, dictKeys]
    · simp [h, dictKeys, ih, List.mem_cons]

theorem lookup_isSome_iff (a : String) (l : List (String × α)) :
    (l.lookup a).isSome = true ↔ a ∈ dictKeys l := by
  rw [← Decidable.not_iff_not, ← lookup_eq_none_iff a l]
  cases l.lookup a <;> simp

theorem lookup_mem {a : String} {b : α} {l : List (String × α)}
    (h : l.lookup a = some b) : (a, b) ∈ l := by
  induction l with
  | nil => simp [List.lookup] at h
  | cons p t ih =>
    rw [lookup_cons'] at h
    by_cases hap : a = p.1
    · rw [if_pos hap] at h
      obtain rfl : b = p.2 := by simpa using h.symm
      subst hap
      simp
    · rw [if_neg hap] at h
      exact List.mem_cons_of_mem _ (ih h)

theorem lookup_append (a : String) (l₁ l₂ : List (String × α)) :
    (l₁ ++ l₂).lookup a = (l₁.lookup a).orElse (fun _ => l₂.lookup a) := by
  induction l₁ with
  | nil => simp [Option.orElse]
  | cons p t ih =>
    rw [List.cons_append, lookup_cons', lookup_cons']
    by_cases h : a = p.1
    · simp [h, Option.orElse]
    · simp [h, ih]

theorem lookup_map_replace (a k : String) (v : α) (d : List (String × α)) :
    (d.map (fun p => if p.1 = k then (k, v) else p)).lookup a =
      if a = k then (if k ∈ dictKeys d then some v else none)
      else d.lookup a := by
  induction d with
  | nil => simp [dictKeys]
  | cons p t ih =>
    rw [List.map_cons]
    by_cases hpk : p.1 = k
    · rw [if_pos hpk, lookup_cons', lookup_cons']
      by_cases hak : a = k
      · simp [hak, dictKeys, hpk]
      · simp [hak, hpk, ih]
    · rw [if_neg hpk, lookup_cons', lookup_cons']
      by_cases hak : a = p.1
      · have hne : ¬ a = k := fun h => hpk (hak.symm.trans h)
        rw [if_pos hak, if_neg hne, if_pos hak]
      · rw [if_neg hak, if_neg hak, ih]
        by_cases hk : a = k
        · rw [if_pos hk, if_pos hk]
          have hmem : (k ∈ dictKeys (p :: t)) = (k ∈ dictKeys t) := by
            simp [dictKeys, List.mem_cons, show ¬ k = p.1 from fun h => hpk h.symm]
          simp only [hmem]
        · rw [if_neg hk, if_neg hk]

theorem lookup_dictInsert (a k : String) (v : α) (d : List (String × α)) :
    (dictInsert d k v).lookup a = if a = k then some v else d.lookup a := by
  unfold dictInsert
  by_cases hk : k ∈ dictKeys d
  · rw [if_pos hk, lookup_map_replace]
    by_cases hak : a = k
    · simp [hak, hk]
    · simp [hak]
  · rw [if_neg hk, lookup_append]
    by_cases hak : a = k
    · subst hak
      have hnone : d.lookup a = none := (lookup_eq_none_iff a d).2 hk
      simp [hnone, lookup_cons', Option.orElse]
    · cases hd : d.lookup a <;>
        simp [hd, lookup_cons', hak, Option.orElse]

theorem dictKeys_dictInsert (k : String) (v : α) (d : List (String × α)) :
    dictKeys (dictInsert d k v) =
      if k ∈ dictKeys d then dictKeys d else dictKeys d ++ [k] := by
  unfold dictInsert
  by_cases hk : k ∈ dictKeys d
  · rw [if_pos hk, if_pos hk]
    unfold dictKeys
    rw [List.map_map]
    apply List.map_congr_left
    intro p _
    by_cases hpk : p.1 = k
    · simp [hpk]
    · simp [hpk]
  · rw [if_neg hk, if_neg hk]
    simp [dictKeys]

theorem nodup_dictKeys_dictInsert {d : List (String × α)} (k : String) (v : α)
    (h : (dictKeys d).Nodup) : (dictKeys (dictInsert d k v)).Nodup := by
  rw [dictKeys_dictInsert]
  by_cases hk : k ∈ dictKeys d
  · simpa [hk] using h
  · simp [hk, List.nodup_append, h]

theorem dictUpdateAll_cons (d : List (String × α)) (p : String × α)
    (s : List (String × α)) :
    dictUpdateAll d (p :: s) = dictUpdateAll (dictInsert d p.1 p.2) s := rfl

theorem nodup_dictKeys_dictUpdateAll (d s : List (String × α))
    (h : (dictKeys d).Nodup) : (dictKeys (dictUpdateAll d s)).Nodup := by
  induction s generalizing d with
  | nil => exact h
  | cons p t ih =>
    rw [dictUpdateAll_cons]
    exact ih _ (nodup_dictKeys_dictInsert p.1 p.2 h)

theorem lookup_dictUpdateAll (a : String) (d s : List (String × α)) :
    (dictUpdateAll d s).lookup a =
      (s.reverse.lookup a).orElse (fun _ => d.lookup a) := by
  induction s using List.reverseRecOn with
  | nil => simp [dictUpdateAll, Option.orElse]
  | append_singleton l p ih =>
    have hfold : dictUpdateAll d (l ++ [p]) =
        dictInsert (dictUpdateAll d l) p.1 p.2 := by
      simp [dictUpdateAll, List.foldl_append]
    rw [hfold, lookup_dictInsert, List.reverse_append]
    simp only [List.reverse_cons, List.reverse_nil, List.nil_append,
      List.singleton_append, lookup_cons']
    by_cases hap : a = p.1
    · simp [hap, Option.orElse]
    · simp [hap, ih]

theorem dictKeys_reverse (l : List (String × α)) :
    dictKeys l.reverse = (dictKeys l).reverse := by
  simp [dictKeys]

theorem lookup_reverse_of_nodup {l : List (String × α)}
    (h : (dictKeys l).Nodup) (a : String) :
    l.reverse.lookup a = l.lookup a := by
  induction l with
  | nil => simp
  | cons p t ih =>
    simp only [dictKeys, List.map_cons, List.nodup_cons] at h
    obtain ⟨hhead, htail⟩ := h
    rw [List.reverse_cons, lookup_append, lookup_cons']
    by_cases hap : a = p.1
    · subst hap
      have hnone : t.reverse.lookup p.1 = none := by
        rw [lookup_eq_none_iff, dictKeys_reverse]
        simpa [dictKeys] using hhead
      simp [hnone, lookup_cons', Option.orElse]
    · cases ht : t.lookup a <;>
        simp [lookup_cons', hap, ih htail, ht, Option.orElse]

theorem dictUpdateAll_of_disjoint (d s : List (String × α))
    (hs : (dictKeys s).Nodup)
    (hdisj : ∀ x ∈ dictKeys s, x ∉ dictKeys d) :
    dictUpdateAll d s = d ++ s := by
  induction s generalizing d with
  | nil => simp [dictUpdateAll]
  | cons p t ih =>
    simp only [dictKeys, List.map_cons, List.nodup_cons] at hs
    obtain ⟨hpt, htail⟩ := hs
    have hp : p.1 ∉ dictKeys d := hdisj p.1 (by simp [dictKeys])
    have hins : dictInsert d p.1 p.2 = d ++ [p] := by
      unfold dictInsert
      rw [if_neg hp]
    have hdisj' : ∀ x ∈ dictKeys t, x ∉ dictKeys (d ++ [p]) := by
      intro x hx
      have hxmem : x ∈ dictKeys (p :: t) := by
        simp only [dictKeys, List.map_cons, List.mem_cons]
        right
        simpa [dictKeys] using hx
      have hxd : x ∉ dictKeys d := hdisj x hxmem
      have hxp : x ≠ p.1 := by
        intro he
        exact hpt (by simpa [dictKeys, he] using hx)
      have hkeys : dictKeys (d ++ [p]) = dictKeys d ++ [p.1] := by
        simp [dictKeys]
      rw [hkeys]
      simp only [List.mem_append, List.mem_singleton]
      rintro (h | h)
      · exact hxd h
      · exact hxp h
    rw [dictUpdateAll_cons, hins, ih (d ++ [p]) htail hdisj']
    simp

theorem dictUpdateAll_nil_of_nodup (s : List (String × α))
    (hs : (dictKeys s).Nodup) : dictUpdateAll [] s = s := by
  rw [dictUpdateAll_of_disjoint [] s hs (by simp [dictKeys])]
  simp

theorem lookup_map_graph (f : String → α) (l : List String) (k : String) :
    ((l.map (fun x => (x, f x))).lookup k) =
      if k ∈ l then some (f k) else none := by
  induction l with
  | nil => simp
  | cons x t ih =>
    rw [List.map_cons, lookup_cons']
    by_cases hk : k = x
    · simp [hk]
    · simp [hk, ih]

theorem mem_keyUnion (k : String) (a b : List String) :
    k ∈ keyUnion a b ↔ k ∈ a ∨ k ∈ b := by
  by_cases hk : k ∈ a
  · simp [keyUnion, hk]
  · simp [keyUnion, hk, List.mem_filter]

theorem lookup_merge (first second : InfoMap) (k : String) :
    (_merge_by_dict_key first second).lookup k =
      if k ∈ dictKeys first ∨ k ∈ dictKeys second
      then some (mergeValueFor first second k) else none := by
  unfold _merge_by_dict_key
  rw [lookup_map_graph]
  by_cases hk : k ∈ dictKeys first ∨ k ∈ dictKeys second
  · rw [if_pos ((mem_keyUnion k _ _).2 hk), if_pos hk]
  · rw [if_neg (fun h => hk ((mem_keyUnion k _ _).1 h)), if_neg hk]

end DictLemmas

/-- Last-write view of the attributes a key receives from one side of the
merge: `rv m k a` is the value at attribute `a` of `m.lookup k`, reading the
latest entry, or `none` when `k` or `a` is absent. -/
def rv (m : InfoMap) (k a : String) : Option String :=
  ((m.lookup k).getD []).reverse.lookup a

theorem lookup_mergeValueFor (first second : InfoMap) (k a : String) :
    (mergeValueFor first second k).lookup a =
      (rv second k a).orElse (fun _ => rv first k a) := by
  unfold mergeValueFor rv
  rw [lookup_dictUpdateAll, lookup_dictUpdateAll]
  cases hs : ((second.lookup k).getD []).reverse.lookup a <;>
    cases hf : ((first.lookup k).getD []).reverse.lookup a <;>
      simp [hs, hf, Option.orElse]

theorem nodup_mergeValueFor (first second : InfoMap) (k : String) :
    (dictKeys (mergeValueFor first second k)).Nodup := by
  unfold mergeValueFor
  exact nodup_dictKeys_dictUpdateAll _ _
    (nodup_dictKeys_dictUpdateAll _ _ (by simp [dictKeys]))

theorem rv_merge (first second : InfoMap) (k a : String) :
    rv (_merge_by_dict_key first second) k a =
      (rv second k a).orElse (fun _ => rv first k a) := by
  unfold rv
  rw [lookup_merge]
  by_cases hk : k ∈ dictKeys first ∨ k ∈ dictKeys second
  · rw [if_pos hk, Option.getD_some,
      lookup_reverse_of_nodup (nodup_mergeValueFor first second k),
      lookup_mergeValueFor]
    rfl
  · push_neg at hk
    have h1 : first.lookup k = none := (lookup_eq_none_iff k first).2 hk.1
    have h2 : second.lookup k = none := (lookup_eq_none_iff k second).2 hk.2
    simp [hk, h1, h2, Option.orElse]

theorem valueAt_merge (first second : InfoMap) (k a : String) :
    valueAt (_merge_by_dict_key first second) k a =
      if k ∈ dictKeys first ∨ k ∈ dictKeys second
      then (rv second k a).orElse (fun _ => rv first k a) else none := by
  unfold valueAt
  rw [lookup_merge]
  by_cases hk : k ∈ dictKeys first ∨ k ∈ dictKeys second
  · rw [if_pos hk, if_pos hk]
    simp only [Option.some_bind]
    rw [← lookup_mergeValueFor,
      ← lookup_reverse_of_nodup (nodup_mergeValueFor first second k) a]
  · simp [hk]

theorem rv_eq_lookup_of_WF {m : InfoMap} (hm : WFInfoMap m) (k a : String) :
    rv m k a = ((m.lookup k).getD []).lookup a := by
  unfold rv
  cases hv : m.lookup k with
  | none => simp
  | some v =>
    have hwf : WFAttrs v := hm.2 (k, v) (lookup_mem hv)
    simp [lookup_reverse_of_nodup hwf]

theorem dictKeys_merge (first second : InfoMap) :
    dictKeys (_merge_by_dict_key first second) =
      keyUnion (dictKeys first) (dictKeys second) := by
  unfold _merge_by_dict_key dictKeys
  rw [List.map_map]
  have hcomp : (Prod.fst ∘ fun k => (k, mergeValueFor first second k)) = id := rfl
  rw [hcomp, List.map_id]

/-- C1: `_merge_by_dict_key` returns a map whose key set is exactly the union
of the two inputs' key sets; for a key present in both inputs the resulting
attribute map answers every attribute query by first consulting `second[key]`
and falling back to `first[key]` (so the second input wins on an
attribute-name collision while every attribute of either side is kept); and a
key present in only one input maps to exactly that input's attribute map,
without error. -/
theorem merge_by_dict_key_spec (first second : InfoMap)
    (hf : WFInfoMap first) (hs : WFInfoMap second) :
    (∀ k, ((_merge_by_dict_key first second).lookup k).isSome = true ↔
        (k ∈ dictKeys first ∨ k ∈ dictKeys second))
    ∧ (∀ k vf vs, first.lookup k = some vf → second.lookup k = some vs →
        ∃ vm, (_merge_by_dict_key first second).lookup k = some vm ∧
          ∀ a, vm.lookup a = (vs.lookup a).orElse (fun _ => vf.lookup a))
    ∧ (∀ k vf, first.lookup k = some vf → second.lookup k = none →
        (_merge_by_dict_key first second).lookup k = some vf)
    ∧ (∀ k vs, first.lookup k = none → second.lookup k = some vs →
        (_merge_by_dict_key first second).lookup k = some vs) := by
  refine ⟨?_, ?_, ?_, ?_⟩
  · intro k
    rw [lookup_merge]
    by_cases h : k ∈ dictKeys first ∨ k ∈ dictKeys second
    · simp [h]
    · simp [h]
  · intro k vf vs hvf hvs
    have hmem : k ∈ dictKeys first := by
      rw [← lookup_isSome_iff]
      simp [hvf]
    refine ⟨mergeValueFor first second k, ?_, ?_⟩
    · rw [lookup_merge, if_pos (Or.inl hmem)]
    · intro a
      rw [lookup_mergeValueFor]
      have h1 : rv second k a = vs.lookup a := by
        rw [rv_eq_lookup_of_WF hs, hvs, Option.getD_some]
      have h2 : rv first k a = vf.lookup a := by
        rw [rv_eq_lookup_of_WF hf, hvf, Option.getD_some]
      rw [h1, h2]
  · intro k vf hvf hnone
    have hmem : k ∈ dictKeys first := by
      rw [← lookup_isSome_iff]
      simp [hvf]
    have hwf : WFAttrs vf := hf.2 (k, vf) (lookup_mem hvf)
    rw [lookup_merge, if_pos (Or.inl hmem)]
    unfold mergeValueFor
    rw [hvf, hnone]
    simp only [Option.getD_some, Option.getD_none]
    rw [show dictUpdateAll (dictUpdateAll [] vf) ([] : Attrs) =
        dictUpdateAll [] vf from rfl]
    rw [dictUpdateAll_nil_of_nodup vf hwf]
  · intro k vs hnone hvs
    have hmem : k ∈ dictKeys second := by
      rw [← lookup_isSome_iff]
      simp [hvs]
    have hwf : WFAttrs vs := hs.2 (k, vs) (lookup_mem hvs)
    rw [lookup_merge, if_pos (Or.inr hmem)]
    unfold mergeValueFor
    rw [hvs, hnone]
    simp only [Option.getD_some, Option.getD_none]
    rw [show dictUpdateAll ([] : Attrs) ([] : Attrs) = [] from rfl]
    rw [dictUpdateAll_nil_of_nodup vs hwf]

/-- Demo input for the merge theorems: titles and vision from one source. -/
def cnDemoMap : InfoMap :=
  [("安柏", [("titleCn", "飞行冠军"), ("visionCn", "火")]),
   ("胡桃", [("titleCn", "雪霁梅香")])]

/-- Demo input for the merge theorems: url plus one colliding attribute from
the other source, and one key absent from the first map. -/
def enDemoMap : InfoMap :=
  [("安柏", [("biligameUrl", "https://wiki.biligame.com/ys/安柏"),
             ("titleCn", "Gliding Champion")]),
   ("夜兰", [("nameCn", "夜兰")])]

theorem merge_by_dict_key_spec_witness :
    ((_merge_by_dict_key cnDemoMap enDemoMap).lookup "夜兰" =
        some [("nameCn", "夜兰")])
    ∧ (∃ vm, (_merge_by_dict_key cnDemoMap enDemoMap).lookup "安柏" = some vm ∧
        ∀ a, vm.lookup a =
          (([("biligameUrl", "https://wiki.biligame.com/ys/安柏"),
             ("titleCn", "Gliding Champion")] : Attrs).lookup a).orElse
            (fun _ => ([("titleCn", "飞行冠军"), ("visionCn", "火")] :
              Attrs).lookup a)) := by
  have h := merge_by_dict_key_spec cnDemoMap enDemoMap (by decide) (by decide)
  exact ⟨h.2.2.2 "夜兰" _ (by decide) (by decide),
    h.2.1 "安柏" _ _ (by decide) (by decide)⟩

/-- C10: the merge is associative up to Python dict equality: merging
`A`, `B`, `C` with either association gives maps with the same key set and
the same stored value at every key and attribute, so the nested three-way
merges in `_get_character_info` are independent of the association order. -/
theorem merge_by_dict_key_assoc (A B C : InfoMap) :
    infoMapEquiv
      (_merge_by_dict_key (_merge_by_dict_key A B) C)
      (_merge_by_dict_key A (_merge_by_dict_key B C)) := by
  have hcond : ∀ k, (k ∈ dictKeys (_merge_by_dict_key A B) ∨ k ∈ dictKeys C) ↔
      (k ∈ dictKeys A ∨ k ∈ dictKeys (_merge_by_dict_key B C)) := by
    intro k
    rw [dictKeys_merge, dictKeys_merge]
    simp [mem_keyUnion, or_assoc]
  constructor
  · intro k
    rw [lookup_merge, lookup_merge]
    by_cases h : k ∈ dictKeys (_merge_by_dict_key A B) ∨ k ∈ dictKeys C
    · rw [if_pos h, if_pos ((hcond k).1 h)]
      rfl
    · rw [if_neg h, if_neg (fun hh => h ((hcond k).2 hh))]
  · intro k a
    rw [valueAt_merge, valueAt_merge]
    by_cases h : k ∈ dictKeys (_merge_by_dict_key A B) ∨ k ∈ dictKeys C
    · rw [if_pos h, if_pos ((hcond k).1 h), rv_merge, rv_merge]
      cases hc : rv C k a <;> cases hb : rv B k a <;> simp [Option.orElse]
    · rw [if_neg h, if_neg (fun hh => h ((hcond k).2 hh))]

deriving instance DecidableEq for Except

/-- Split a character list at every separator character, keeping empty
pieces (the helper under both `pySplit` and `splitOnDot`). -/
def splitChars (p : Char → Bool) : List Char → List (List Char)
  | [] => [[]]
  | c :: cs =>
    let r := splitChars p cs
    if p c then [] :: r
    else
      match r with
      | [] => [[c]]
      | w :: ws => (c :: w) :: ws

/-- The code points CPython treats as whitespace (`str.isspace`, used by
no-argument `str.split` and by the surrounding-whitespace stripping of
`int`): the Unicode White_Space characters plus the 0x1C-0x1F separators. -/
def pyIsSpace (c : Char) : Bool :=
  [0x9, 0xa, 0xb, 0xc, 0xd, 0x1c, 0x1d, 0x1e, 0x1f, 0x20, 0x85, 0xa0,
    0x1680, 0x2028, 0x2029, 0x202f, 0x205f, 0x3000].contains c.toNat
  || (0x2000 ≤ c.toNat && c.toNat ≤ 0x200a)

/-- Python `str.split()` with no argument: split on runs of Python
whitespace and drop empty pieces. -/
def pySplit (s : String) : List String :=
  ((splitChars pyIsSpace s.toList).filter (fun w => ¬ w.isEmpty)).map
    (fun w => String.mk w)

/-- Python `str.split(".")`: split on every dot, keeping empty pieces. -/
def splitOnDot (s : String) : List String :=
  (splitChars (fun c => c = '.') s.toList).map (fun w => String.mk w)

/-- First code point of every Unicode 14 Nd (decimal digit) run; each run is
ten consecutive characters with decimal values 0 through 9.  These are the
digits CPython `int` accepts. -/
def ndDigitRunStarts : List Nat :=
  [0x30, 0x660, 0x6f0, 0x7c0, 0x966, 0x9e6, 0xa66, 0xae6, 0xb66, 0xbe6,
   0xc66, 0xce6, 0xd66, 0xde6, 0xe50, 0xed0, 0xf20, 0x1040, 0x1090, 0x17e0,
   0x1810, 0x1946, 0x19d0, 0x1a80, 0x1a90, 0x1b50, 0x1bb0, 0x1c40, 0x1c50,
   0xa620, 0xa8d0, 0xa900, 0xa9d0, 0xa9f0, 0xaa50, 0xabf0, 0xff10, 0x104a0,
   0x10d30, 0x11066, 0x110f0, 0x11136, 0x111d0, 0x112f0, 0x11450, 0x114d0,
   0x11650, 0x116c0, 0x11730, 0x118e0, 0x11950, 0x11c50, 0x11d50, 0x11da0,
   0x16a60, 0x16ac0, 0x16b50, 0x1d7ce, 0x1d7d8, 0x1d7e2, 0x1d7ec, 0x1d7f6,
   0x1e140, 0x1e2f0, 0x1e950, 0x1fbf0]

/-- Decimal value of a character if it is a Unicode decimal digit (category
Nd), as CPython `int` reads digits. -/
def pyDigitVal (c : Char) : Option Nat :=
  ndDigitRunStarts.findSome? (fun st =>
    if st ≤ c.toNat ∧ c.toNat ≤ st + 9 then some (c.toNat - st) else none)

/-- Continue reading a digit sequence after at least one digit, allowing a
single underscore between digits (CPython grammar
`digit (["_"] digit)*`). -/
def digitsCore : Nat → List Char → Option Nat
  | acc, [] => some acc
  | acc, '_' :: c :: rest =>
    match pyDigitVal c with
    | some d => digitsCore (acc * 10 + d) rest
    | none => none
  | _, ['_'] => none
  | acc, c :: rest =>
    match pyDigitVal c with
    | some d => digitsCore (acc * 10 + d) rest
    | none => none

/-- A full digit sequence: at least one digit, underscores only between
digits. -/
def digitsVal : List Char → Option Nat
  | [] => none
  | c :: rest =>
    match pyDigitVal c with
    | some d => digitsCore d rest
    | none => none

/-- Drop Python whitespace from both ends. -/
def stripPySpace (l : List Char) : List Char :=
  ((l.dropWhile pyIsSpace).reverse.dropWhile pyIsSpace).reverse

/-- Python `int(s)` on a string: optional surrounding whitespace, an optional
`+` or `-` sign, then Unicode decimal digits with single underscores allowed
between digits; anything else raises ValueError, modelled as `none`. -/
def pyInt (s : String) : Option Int :=
  match stripPySpace s.toList with
  | '+' :: rest => (digitsVal rest).map (fun n => (n : Int))
  | '-' :: rest => (digitsVal rest).map (fun n => -(n : Int))
  | rest => (digitsVal rest).map (fun n => (n : Int))

/-- Python list indexing `l[i]`, raising IndexError when out of range. -/
def nthE {α : Type} (l : List α) (i : Nat) : Except String α :=
  match l.get? i with
  | some x => .ok x
  | none => .error "IndexError"

/-- Lift an optional value into `Except`, naming the Python exception that
the `none` case raises. -/
def exceptOfOption {α : Type} (e : String) : Option α → Except String α
  | some a => .ok a
  | none => .error e

/-- `__MONTH_NAME_TO_NUM` from `character_info.py` line 13: the English month
names of `calendar.month_name` mapped to their one-based index. -/
def MONTH_NAME_TO_NUM : List (String × Nat) :=
  [("January", 1), ("February", 2), ("March", 3), ("April", 4), ("May", 5),
   ("June", 6), ("July", 7), ("August", 8), ("September", 9), ("October", 10),
   ("November", 11), ("December", 12)]

/-- Gregorian leap-year test used by `datetime.datetime`. -/
def isLeapYear (y : Nat) : Bool :=
  y % 4 = 0 && (y % 100 ≠ 0 || y % 400 = 0)

/-- Days in a month of the proleptic Gregorian calendar
(`datetime.datetime` validates the day against this bound). -/
def daysInMonth (y m : Nat) : Nat :=
  if m = 2 then (if isLeapYear y then 29 else 28)
  else if m = 4 ∨ m = 6 ∨ m = 9 ∨ m = 11 then 30
  else 31

/-- `__convert_to_local_unix_date_tamp` (character_info.py lines 42-63)
up to the `time.mktime` call: evaluate
`datetime(int(split()[2]), MONTH[split()[0]], int(split()[1][:-1]))` in Python
argument order, with IndexError for a missing token, ValueError for a
non-integer token or an out-of-range date, and KeyError for an unknown month
name.  Returns the validated (year, month, day). -/
def parseReleaseDate (s : String) : Except String (Nat × Nat × Nat) := do
  let toks := pySplit s
  let ytok ← nthE toks 2
  let yi ← exceptOfOption "ValueError" (pyInt ytok)
  let mtok ← nthE toks 0
  let m ← exceptOfOption "KeyError" (MONTH_NAME_TO_NUM.lookup mtok)
  let dtok ← nthE toks 1
  let di ← exceptOfOption "ValueError" (pyInt (dtok.dropRight 1))
  if 1 ≤ yi ∧ yi ≤ 9999 ∧ 1 ≤ di ∧ di ≤ (daysInMonth yi.toNat m : Int)
  then pure (yi.toNat, m, di.toNat)
  else .error "ValueError"

/-- `sys.maxsize` on a 64-bit CPython build: the "not yet released"
sentinel. -/
def sys_maxsize : Int := 9223372036854775807

/-- `RELEASE_DATE` from `character_info.py` line 12. -/
def RELEASE_DATE : String := "releaseDate"

/-- `get_character_release_date_stamp` (character_info.py lines 66-102): the
local-midnight timestamp of the parsed release date, or `sys.maxsize` when the
record has no release-date attribute.  `mk` abstracts
`time.mktime(datetime(y, m, d).timetuple())` of the executing host. -/
def get_character_release_date_stamp (mk : Nat → Nat → Nat → Int)
    (character : Attrs) : Except String Int :=
  match character.lookup RELEASE_DATE with
  | some s => (parseReleaseDate s).map (fun ymd => mk ymd.1 ymd.2.1 ymd.2.2)
  | none => .ok sys_maxsize

/-- Last character of a string, if any. -/
def lastCharOf (s : String) : Option Char := s.toList.getLast?

/-- Modelled from the spec: the documented release-date shape
"MonthName Day, Year" — exactly three whitespace-separated tokens, a known
English month name, a day number followed by the comma, a year number (both
numbers read the way Python `int` reads them), and a date that is valid in
the proleptic Gregorian calendar.  Returns its (year, month, day) reading,
or `none` if the string is not of that shape. -/
def specReleaseDateFields (s : String) : Option (Nat × Nat × Nat) :=
  match pySplit s with
  | [mtok, dtok, ytok] =>
    match MONTH_NAME_TO_NUM.lookup mtok,
        (if lastCharOf dtok = some ',' then pyInt (dtok.dropRight 1) else none),
        pyInt ytok with
    | some m, some di, some yi =>
      if 1 ≤ yi ∧ yi ≤ 9999 ∧ 1 ≤ di ∧ di ≤ (daysInMonth yi.toNat m : Int)
      then some (yi.toNat, m, di.toNat) else none
    | _, _, _ => none
  | _ => none

theorem parse_of_specShape {s : String} {y m d : Nat}
    (h : specReleaseDateFields s = some (y, m, d)) :
    parseReleaseDate s = .ok (y, m, d) := by
  unfold specReleaseDateFields at h
  split at h
  case h_2 => exact absurd h (by simp)
  case h_1 mtok dtok ytok heq =>
    split at h
    case h_2 => exact absurd h (by simp)
    case h_1 mv dv yv hm hd hy =>
      split at h
      case isFalse => exact absurd h (by simp)
      case isTrue hcond =>
        obtain ⟨rfl, rfl, rfl⟩ : yv.toNat = y ∧ mv = m ∧ dv.toNat = d := by
          simpa using h
        have hd' : pyInt (dtok.dropRight 1) = some dv := by
          by_cases hc : lastCharOf dtok = some ','
          · simpa [hc] using hd
          · simp [hc] at hd
        simp [parseReleaseDate, heq, nthE, hy, hm, hd', exceptOfOption,
          Bind.bind, Except.bind, hcond, pure, Except.pure]

/-- Deterministic stand-in for `time.mktime` in concrete evaluations: an
injective bounded encoding of (year, month, day). -/
def mktimeStub (y m d : Nat) : Int :=
  (((y % 10000) * 10000 + (m % 100) * 100 + d % 100 : Nat) : Int)

theorem mktimeStub_lt (y m d : Nat) : mktimeStub y m d < sys_maxsize := by
  unfold mktimeStub sys_maxsize
  have h1 : y % 10000 < 10000 := Nat.mod_lt _ (by omega)
  have h2 : m % 100 < 100 := Nat.mod_lt _ (by omega)
  have h3 : d % 100 < 100 := Nat.mod_lt _ (by omega)
  omega

/-- C4 (amended): `get_character_release_date_stamp` is a pure function whose
behaviour splits as: release-date attribute absent gives the `sys.maxsize`
sentinel; attribute present and of the documented "MonthName Day, Year" shape
with a known English month gives the local-midnight timestamp `mk y m d` of
that date; and attribute present but failing the parse (missing token,
unknown month name, non-integer day or year token, out-of-range date) raises
the parse error — the sentinel is never a parse-failure fallback.  What the
original claim overstates: not every malformed string fails the parse (see
the counterexample). -/
theorem release_date_stamp_cases (mk : Nat → Nat → Nat → Int) (c : Attrs) :
    (c.lookup RELEASE_DATE = none →
      get_character_release_date_stamp mk c = .ok sys_maxsize)
    ∧ (∀ s y m d, c.lookup RELEASE_DATE = some s →
        specReleaseDateFields s = some (y, m, d) →
        get_character_release_date_stamp mk c = .ok (mk y m d))
    ∧ (∀ s e, c.lookup RELEASE_DATE = some s →
        parseReleaseDate s = .error e →
        get_character_release_date_stamp mk c = .error e) := by
  refine ⟨?_, ?_, ?_⟩
  · intro h
    unfold get_character_release_date_stamp
    rw [h]
  · intro s y m d hs hshape
    unfold get_character_release_date_stamp
    rw [hs]
    show Except.map (fun ymd => mk ymd.1 ymd.2.1 ymd.2.2)
      (parseReleaseDate s) = .ok (mk y m d)
    rw [parse_of_specShape hshape]
    rfl
  · intro s e hs herr
    unfold get_character_release_date_stamp
    rw [hs]
    show Except.map (fun ymd => mk ymd.1 ymd.2.1 ymd.2.2)
      (parseReleaseDate s) = .error e
    rw [herr]
    rfl

/-- Record used to instantiate the release-date theorems. -/
def amberRecord : Attrs :=
  [("nameCn", "安柏"), ("releaseDate", "September 28, 2020")]

theorem release_date_stamp_cases_witness :
    (get_character_release_date_stamp mktimeStub amberRecord =
      .ok (mktimeStub 2020 9 28))
    ∧ (get_character_release_date_stamp mktimeStub
        [("releaseDate", "September +28, 2020")] =
      .ok (mktimeStub 2020 9 28)) :=
  ⟨(release_date_stamp_cases mktimeStub amberRecord).2.1
    "September 28, 2020" 2020 9 28 (by decide) (by decide),
   (release_date_stamp_cases mktimeStub
      [("releaseDate", "September +28, 2020")]).2.1
    "September +28, 2020" 2020 9 28 (by decide) (by decide)⟩

/-- C4 counterexample: the string "September 28 2020" (comma missing) is not
of the documented release-date shape, yet the call does not raise — the code
unconditionally strips the last character of the day token and silently
parses the date as September 2, 2020, returning its timestamp. -/
theorem release_date_malformed_no_raise :
    specReleaseDateFields "September 28 2020" = none
    ∧ parseReleaseDate "September 28 2020" = .ok (2020, 9, 2)
    ∧ get_character_release_date_stamp mktimeStub
        [("releaseDate", "September 28 2020")] = .ok (mktimeStub 2020 9 2) := by
  refine ⟨by decide, by decide, ?_⟩
  unfold get_character_release_date_stamp
  rw [show (([("releaseDate", "September 28 2020")] : Attrs).lookup
    RELEASE_DATE) = some "September 28 2020" from by decide]
  show Except.map (fun ymd => mktimeStub ymd.1 ymd.2.1 ymd.2.2)
    (parseReleaseDate "September 28 2020") = .ok (mktimeStub 2020 9 2)
  rw [show parseReleaseDate "September 28 2020" = .ok (2020, 9, 2) from
    by decide]
  rfl

/-- Code-point lexicographic comparison of character lists — how Python
compares strings. -/
def strLeB : List Char → List Char → Bool
  | [], _ => true
  | _ :: _, [] => false
  | c :: cs, d :: ds => if c < d then true else if d < c then false else strLeB cs ds

/-- Python string `<=`: lexicographic by code point. -/
def pyStrLe (a b : String) : Prop := strLeB a.toList b.toList = true

instance : DecidableRel pyStrLe := fun a b =>
  inferInstanceAs (Decidable (_ = true))

theorem strLeB_total (a b : List Char) : strLeB a b = true ∨ strLeB b a = true := by
  induction a generalizing b with
  | nil => left; rfl
  | cons c cs ih =>
    cases b with
    | nil => right; rfl
    | cons d ds =>
      by_cases h1 : c < d
      · left
        simp [strLeB, h1]
      · by_cases h2 : d < c
        · right
          simp [strLeB, h2]
        · have hcd : c = d := le_antisymm (not_lt.1 h2) (not_lt.1 h1)
          subst hcd
          rcases ih ds with h | h
          · left
            simpa [strLeB, lt_irrefl] using h
          · right
            simpa [strLeB, lt_irrefl] using h

theorem strLeB_trans {a b c : List Char} (h1 : strLeB a b = true)
    (h2 : strLeB b c = true) : strLeB a c = true := by
  induction a generalizing b c with
  | nil => rfl
  | cons x xs ih =>
    cases b with
    | nil => simp [strLeB] at h1
    | cons y ys =>
      cases c with
      | nil => simp [strLeB] at h2
      | cons z zs =>
        by_cases hxy : x < y
        · by_cases hyz : y < z
          · simp [strLeB, lt_trans hxy hyz]
          · by_cases hzy : z < y
            · simp [strLeB, hyz, hzy] at h2
            · have : y = z := le_antisymm (not_lt.1 hzy) (not_lt.1 hyz)
              subst this
              simp [strLeB, hxy]
        · by_cases hyx : y < x
          · simp [strLeB, hxy, hyx] at h1
          · have hxyeq : x = y := le_antisymm (not_lt.1 hyx) (not_lt.1 hxy)
            subst hxyeq
            simp only [strLeB, lt_irrefl, if_false] at h1
            by_cases hxz : x < z
            · simp [strLeB, hxz]
            · by_cases hzx : z < x
              · simp [strLeB, hxz, hzx] at h2
              · have hxzeq : x = z := le_antisymm (not_lt.1 hzx) (not_lt.1 hxz)
                subst hxzeq
                simp only [strLeB, lt_irrefl, if_false] at h2 ⊢
                exact ih h1 h2

/-- The sort key of `__sort_by_character_name_cn`: `character["nameCn"]`. -/
def nameCnOf (c : Attrs) : String := (c.lookup "nameCn").getD ""

/-- Order on records used by `sorted(characters, key=...)`: ascending Chinese
name, compared as Python compares strings. -/
def nameLe (a b : Attrs) : Prop := pyStrLe (nameCnOf a) (nameCnOf b)

instance : DecidableRel nameLe := fun a b =>
  inferInstanceAs (Decidable (pyStrLe _ _))

instance : IsTotal Attrs nameLe :=
  ⟨fun a b => strLeB_total (nameCnOf a).toList (nameCnOf b).toList⟩

instance : IsTrans Attrs nameLe :=
  ⟨fun _ _ _ h1 h2 => strLeB_trans h1 h2⟩

/-- One step of `defaultdict(list)` grouping: append the record to the list of
its stamp, creating the entry at the end when the stamp is new. -/
def addToGroup : List (Int × List Attrs) → Int → Attrs → List (Int × List Attrs)
  | [], t, c => [(t, [c])]
  | (t', g) :: rest, t, c =>
    if t' = t then (t', g ++ [c]) :: rest else (t', g) :: addToGroup rest t c

/-- Loop of `__group_by_release_date_stamp` (character_info.py lines 16-29):
stamp each record in order and append it to its stamp's group; a stamp
failure (DateParseError) propagates. -/
def groupByStamp (mk : Nat → Nat → Nat → Int) :
    List Attrs → List (Int × List Attrs) → Except String (List (Int × List Attrs))
  | [], acc => .ok acc
  | c :: rest, acc => do
    let t ← get_character_release_date_stamp mk c
    groupByStamp mk rest (addToGroup acc t c)

/-- `__group_by_release_date_stamp`: regroup the records by release-date
stamp, preserving first-seen stamp order (Python dict insertion order). -/
def __group_by_release_date_stamp (mk : Nat → Nat → Nat → Int)
    (records : List Attrs) : Except String (List (Int × List Attrs)) :=
  groupByStamp mk records []

/-- `__sort_by_character_name_cn` (character_info.py lines 32-39):
`sorted(characters, key=lambda c: c["nameCn"])` — KeyError when a record has
no `nameCn` attribute, otherwise a stable ascending sort by that name. -/
def __sort_by_character_name_cn (characters : List Attrs) :
    Except String (List Attrs) :=
  if characters.all (fun c => (c.lookup "nameCn").isSome)
  then .ok (List.insertionSort nameLe characters)
  else .error "KeyError"

/-- The in-place loop of `get_character_info_json` lines 179-180: replace
each group by its name-sorted version, keeping the key order. -/
def sortGroups : List (Int × List Attrs) → Except String (List (Int × List Attrs))
  | [] => .ok []
  | (t, g) :: rest => do
    let g' ← __sort_by_character_name_cn g
    let rest' ← sortGroups rest
    pure ((t, g') :: rest')

/-- The ordering core of `get_character_info_json` (character_info.py lines
177-189): group by stamp, sort every group by name, sort the stamps
ascending, and concatenate the groups in that stamp order. -/
def get_ordered_character_list (mk : Nat → Nat → Nat → Int)
    (records : List Attrs) : Except String (List Attrs) := do
  let groups ← __group_by_release_date_stamp mk records
  let sorted ← sortGroups groups
  let stamps := List.insertionSort (fun a b : Int => a ≤ b) (sorted.map Prod.fst)
  pure ((stamps.map (fun t => (sorted.lookup t).getD [])).flatten)

theorem except_bind_ok {ε α β : Type} {e : Except ε α} {f : α → Except ε β}
    {b : β} (h : (e >>= f) = .ok b) : ∃ a, e = .ok a ∧ f a = .ok b := by
  cases e with
  | ok a => exact ⟨a, rfl, h⟩
  | error err => simp [Bind.bind, Except.bind] at h

section GenericLookup

variable {α β : Type} [BEq α] [LawfulBEq α]

theorem lookupG_cons (a : α) (p : α × β) (t : List (α × β)) :
    ((p :: t).lookup a) = if a == p.1 then some p.2 else t.lookup a := by
  obtain ⟨k, v⟩ := p
  cases h : a == k <;> simp [List.lookup_cons, h]

theorem lookupG_mem {a : α} {b : β} {l : List (α × β)}
    (h : l.lookup a = some b) : (a, b) ∈ l := by
  induction l with
  | nil => simp [List.lookup] at h
  | cons p t ih =>
    rw [lookupG_cons] at h
    cases hap : a == p.1 with
    | true =>
      rw [hap, if_pos rfl] at h
      obtain rfl : p.2 = b := by simpa using h
      have : a = p.1 := by simpa using hap
      subst this
      simp
    | false =>
      rw [hap] at h
      simp only [Bool.false_eq_true, if_false] at h
      exact List.mem_cons_of_mem _ (ih h)

theorem lookupG_isSome_of_mem_keys {a : α} {l : List (α × β)}
    (h : a ∈ l.map Prod.fst) : (l.lookup a).isSome = true := by
  induction l with
  | nil => simp at h
  | cons p t ih =>
    simp only [List.map_cons, List.mem_cons] at h
    rw [lookupG_cons]
    cases hap : a == p.1 with
    | true => simp
    | false =>
      simp only [Bool.false_eq_true, if_false]
      rcases h with h1 | h1
      · simp [h1] at hap
      · exact ih h1

theorem lookupG_eq_of_mem_nodup {a : α} {b : β} {l : List (α × β)}
    (hn : (l.map Prod.fst).Nodup) (h : (a, b) ∈ l) : l.lookup a = some b := by
  induction l with
  | nil => simp at h
  | cons p t ih =>
    simp only [List.map_cons, List.nodup_cons] at hn
    rw [lookupG_cons]
    rcases List.mem_cons.1 h with h1 | h1
    · rw [← h1]
      simp
    · have hne : (a == p.1) = false := by
        apply beq_false_of_ne
        intro he
        apply hn.1
        have : a ∈ t.map Prod.fst := List.mem_map_of_mem Prod.fst h1
        exact he ▸ this
      rw [hne]
      simp only [Bool.false_eq_true, if_false]
      exact ih hn.2 h1

end GenericLookup

theorem addToGroup_keys (acc : List (Int × List Attrs)) (t : Int) (c : Attrs) :
    (addToGroup acc t c).map Prod.fst =
      if t ∈ acc.map Prod.fst then acc.map Prod.fst
      else acc.map Prod.fst ++ [t] := by
  induction acc with
  | nil => simp [addToGroup]
  | cons p rest ih =>
    obtain ⟨t', g⟩ := p
    by_cases h : t' = t
    · subst h
      simp [addToGroup]
    · rw [show addToGroup ((t', g) :: rest) t c = (t', g) :: addToGroup rest t c
        from by simp [addToGroup, h]]
      simp only [List.map_cons, ih, List.mem_cons]
      have hne : ¬ t = t' := fun he => h he.symm
      by_cases hm : t ∈ rest.map Prod.fst
      · simp [hm]
      · simp [hm, hne]

theorem addToGroup_mem (acc : List (Int × List Attrs)) (t : Int) (c : Attrs) :
    ∀ tg ∈ addToGroup acc t c,
      tg ∈ acc ∨ (∃ g, tg = (t, g ++ [c]) ∧ (t, g) ∈ acc) ∨ tg = (t, [c]) := by
  induction acc with
  | nil =>
    intro tg h
    simp [addToGroup] at h
    right; right; exact h
  | cons p rest ih =>
    obtain ⟨t', g⟩ := p
    intro tg htg
    by_cases h : t' = t
    · subst h
      simp only [addToGroup, if_pos rfl] at htg
      rcases List.mem_cons.1 htg with rfl | hmem
      · right; left; exact ⟨g, rfl, by simp⟩
      · left; exact List.mem_cons_of_mem _ hmem
    · simp only [addToGroup, if_neg h] at htg
      rcases List.mem_cons.1 htg with rfl | hmem
      · left; simp
      · rcases ih tg hmem with h1 | h2 | h3
        · left; exact List.mem_cons_of_mem _ h1
        · right; left
          obtain ⟨g', e, m⟩ := h2
          exact ⟨g', e, List.mem_cons_of_mem _ m⟩
        · right; right; exact h3

theorem addToGroup_persist (acc : List (Int × List Attrs)) (t : Int) (c : Attrs) :
    ∀ t' g, (t', g) ∈ acc →
      ∃ g', (t', g') ∈ addToGroup acc t c ∧ ∀ r ∈ g, r ∈ g' := by
  induction acc with
  | nil => intro t' g h; simp at h
  | cons p rest ih =>
    obtain ⟨t0, g0⟩ := p
    intro t' g hmem
    rcases List.mem_cons.1 hmem with heq | hrest
    · have h1 : t' = t0 := congrArg Prod.fst heq
      have h2 : g = g0 := congrArg Prod.snd heq
      subst h1
      subst h2
      by_cases h : t' = t
      · subst h
        simp only [addToGroup, if_pos rfl]
        exact ⟨g ++ [c], List.mem_cons_self _ _, fun r hr => by simp [hr]⟩
      · simp only [addToGroup, if_neg h]
        exact ⟨g, List.mem_cons_self _ _, fun r hr => hr⟩
    · by_cases h : t0 = t
      · subst h
        simp only [addToGroup, if_pos rfl]
        exact ⟨g, List.mem_cons_of_mem _ hrest, fun r hr => hr⟩
      · simp only [addToGroup, if_neg h]
        obtain ⟨g', hg', hsub⟩ := ih t' g hrest
        exact ⟨g', List.mem_cons_of_mem _ hg', hsub⟩

theorem addToGroup_self (acc : List (Int × List Attrs)) (t : Int) (c : Attrs) :
    ∃ g', (t, g') ∈ addToGroup acc t c ∧ c ∈ g' := by
  induction acc with
  | nil => exact ⟨[c], by simp [addToGroup], by simp⟩
  | cons p rest ih =>
    obtain ⟨t0, g0⟩ := p
    by_cases h : t0 = t
    · subst h
      exact ⟨g0 ++ [c], by simp [addToGroup], by simp⟩
    · obtain ⟨g', hg', hc⟩ := ih
      exact ⟨g', by simp only [addToGroup, if_neg h]; exact List.mem_cons_of_mem _ hg', hc⟩

theorem groupByStamp_spec (mk : Nat → Nat → Nat → Int) :
    ∀ (records : List Attrs) (acc groups : List (Int × List Attrs)),
    groupByStamp mk records acc = .ok groups →
    ((acc.map Prod.fst).Nodup → (groups.map Prod.fst).Nodup)
    ∧ ((∀ tg ∈ acc, ∀ r ∈ tg.2,
          get_character_release_date_stamp mk r = .ok tg.1) →
        ∀ tg ∈ groups, ∀ r ∈ tg.2,
          get_character_release_date_stamp mk r = .ok tg.1)
    ∧ (∀ t' g, (t', g) ∈ acc → ∃ g', (t', g') ∈ groups ∧ ∀ r ∈ g, r ∈ g')
    ∧ (∀ r ∈ records, ∃ t g, (t, g) ∈ groups ∧ r ∈ g) := by
  intro records
  induction records with
  | nil =>
    intro acc groups h
    obtain rfl : acc = groups := by simpa [groupByStamp] using h
    exact ⟨id, id, fun t' g hm => ⟨g, hm, fun r hr => hr⟩, by simp⟩
  | cons c rest ih =>
    intro acc groups h
    rw [show groupByStamp mk (c :: rest) acc =
        (get_character_release_date_stamp mk c) >>=
          (fun t => groupByStamp mk rest (addToGroup acc t c)) from rfl] at h
    obtain ⟨t, hstamp, hrec⟩ := except_bind_ok h
    obtain ⟨ih1, ih2, ih3, ih4⟩ := ih (addToGroup acc t c) groups hrec
    refine ⟨?_, ?_, ?_, ?_⟩
    · intro hnodup
      apply ih1
      rw [addToGroup_keys]
      by_cases hm : t ∈ acc.map Prod.fst
      · simpa [hm] using hnodup
      · simp [hm, List.nodup_append, hnodup]
    · intro hprop
      apply ih2
      intro tg htg
      rcases addToGroup_mem acc t c tg htg with h1 | h2 | h3
      · exact hprop tg h1
      · obtain ⟨g, rfl, hg⟩ := h2
        intro r hr
        rcases List.mem_append.1 hr with hr1 | hr2
        · exact hprop (t, g) hg r hr1
        · obtain rfl : r = c := by simpa using hr2
          exact hstamp
      · subst h3
        intro r hr
        obtain rfl : r = c := by simpa using hr
        exact hstamp
    · intro t' g hm
      obtain ⟨g1, hg1, hsub1⟩ := addToGroup_persist acc t c t' g hm
      obtain ⟨g2, hg2, hsub2⟩ := ih3 t' g1 hg1
      exact ⟨g2, hg2, fun r hr => hsub2 r (hsub1 r hr)⟩
    · intro r hr
      rcases List.mem_cons.1 hr with rfl | hr2
      · obtain ⟨g1, hg1, hc⟩ := addToGroup_self acc t r
        obtain ⟨g2, hg2, hsub⟩ := ih3 t g1 hg1
        exact ⟨t, g2, hg2, hsub r hc⟩
      · exact ih4 r hr2

theorem sort_by_name_ok {characters out : List Attrs}
    (h : __sort_by_character_name_cn characters = .ok out) :
    out = List.insertionSort nameLe characters
    ∧ ∀ r ∈ characters, (r.lookup "nameCn").isSome = true := by
  unfold __sort_by_character_name_cn at h
  split at h
  case isTrue hall =>
    refine ⟨by simpa using h.symm, ?_⟩
    intro r hr
    exact List.all_eq_true.1 hall r hr
  case isFalse => simp at h

theorem sortGroups_spec :
    ∀ (groups sorted : List (Int × List Attrs)),
    sortGroups groups = .ok sorted →
    List.Forall₂ (fun tg tg' => tg.1 = tg'.1 ∧ tg'.2.Perm tg.2 ∧
      List.Pairwise nameLe tg'.2 ∧
      ∀ r ∈ tg'.2, (r.lookup "nameCn").isSome = true) groups sorted := by
  intro groups
  induction groups with
  | nil =>
    intro sorted h
    obtain rfl : ([] : List (Int × List Attrs)) = sorted := by
      simpa [sortGroups] using h
    exact List.Forall₂.nil
  | cons p rest ih =>
    intro sorted h
    obtain ⟨t, g⟩ := p
    rw [show sortGroups ((t, g) :: rest) =
        (__sort_by_character_name_cn g) >>= (fun g' =>
          (sortGroups rest) >>= (fun rest' => pure ((t, g') :: rest'))) from
            rfl] at h
    obtain ⟨g', hg', h2⟩ := except_bind_ok h
    obtain ⟨rest', hrest', h3⟩ := except_bind_ok h2
    obtain rfl : (t, g') :: rest' = sorted := by
      simpa [pure, Except.pure] using h3
    obtain ⟨hsorteq, hnames⟩ := sort_by_name_ok hg'
    subst hsorteq
    refine List.Forall₂.cons ⟨rfl, List.perm_insertionSort nameLe g,
      List.sorted_insertionSort nameLe g, ?_⟩ (ih rest' hrest')
    intro r hr
    exact hnames r ((List.perm_insertionSort nameLe g).mem_iff.1 hr)

theorem forall₂_keys_eq {l l' : List (Int × List Attrs)}
    {R : (Int × List Attrs) → (Int × List Attrs) → Prop}
    (hR : ∀ a b, R a b → a.1 = b.1)
    (h : List.Forall₂ R l l') : l.map Prod.fst = l'.map Prod.fst := by
  induction h with
  | nil => rfl
  | cons hab _ ih => simp [hR _ _ hab, ih]

theorem forall₂_mem_right {α : Type} {R : α → α → Prop} {l l' : List α}
    (h : List.Forall₂ R l l') {y : α} (hy : y ∈ l') : ∃ x ∈ l, R x y := by
  induction h with
  | nil => simp at hy
  | cons hab _ ih =>
    rcases List.mem_cons.1 hy with rfl | hmem
    · exact ⟨_, List.mem_cons_self _ _, hab⟩
    · obtain ⟨x, hx, hr⟩ := ih hmem
      exact ⟨x, List.mem_cons_of_mem _ hx, hr⟩

theorem forall₂_mem_left {α : Type} {R : α → α → Prop} {l l' : List α}
    (h : List.Forall₂ R l l') {x : α} (hx : x ∈ l) : ∃ y ∈ l', R x y := by
  induction h with
  | nil => simp at hx
  | cons hab _ ih =>
    rcases List.mem_cons.1 hx with rfl | hmem
    · exact ⟨_, List.mem_cons_self _ _, hab⟩
    · obtain ⟨y, hy, hr⟩ := ih hmem
      exact ⟨y, List.mem_cons_of_mem _ hy, hr⟩

theorem stamp_absent {mk : Nat → Nat → Nat → Int} {c : Attrs}
    (h : c.lookup RELEASE_DATE = none) :
    get_character_release_date_stamp mk c = .ok sys_maxsize := by
  unfold get_character_release_date_stamp
  rw [h]

theorem stamp_lt_of_dated {mk : Nat → Nat → Nat → Int}
    (hmk : ∀ y m d, mk y m d < sys_maxsize) {c : Attrs} {t : Int}
    (hd : (c.lookup RELEASE_DATE).isSome = true)
    (hs : get_character_release_date_stamp mk c = .ok t) : t < sys_maxsize := by
  unfold get_character_release_date_stamp at hs
  cases hl : c.lookup RELEASE_DATE with
  | none => rw [hl] at hd; simp at hd
  | some s =>
    rw [hl] at hs
    cases hp : parseReleaseDate s with
    | error e =>
      rw [show (match some s with
          | some s => Except.map (fun ymd => mk ymd.1 ymd.2.1 ymd.2.2)
              (parseReleaseDate s)
          | none => Except.ok sys_maxsize) =
          Except.map (fun ymd => mk ymd.1 ymd.2.1 ymd.2.2) (parseReleaseDate s)
        from rfl, hp] at hs
      simp [Except.map] at hs
    | ok ymd =>
      rw [show (match some s with
          | some s => Except.map (fun ymd => mk ymd.1 ymd.2.1 ymd.2.2)
              (parseReleaseDate s)
          | none => Except.ok sys_maxsize) =
          Except.map (fun ymd => mk ymd.1 ymd.2.1 ymd.2.2) (parseReleaseDate s)
        from rfl, hp] at hs
      simp only [Except.map, Except.ok.injEq] at hs
      rw [← hs]
      exact hmk ymd.1 ymd.2.1 ymd.2.2

/-- C5: whenever the ordering pipeline of `get_character_info_json` returns a
list, that list is ascending in release-date stamp, records sharing a stamp
are ascending in `nameCn` (compared by code point as Python compares
strings), and every record lacking a release-date attribute comes after all
records that have one.  The hypothesis on `mk` records that `time.mktime`
never reaches `sys.maxsize`. -/
theorem ordered_character_list_sorted (mk : Nat → Nat → Nat → Int)
    (records l : List Attrs)
    (hmk : ∀ y m d, mk y m d < sys_maxsize)
    (hok : get_ordered_character_list mk records = .ok l) :
    List.Pairwise (fun a b => ∀ sa sb,
      get_character_release_date_stamp mk a = .ok sa →
      get_character_release_date_stamp mk b = .ok sb →
      sa < sb ∨ (sa = sb ∧ nameLe a b)) l
    ∧ List.Pairwise (fun a b =>
        (b.lookup RELEASE_DATE).isSome = true →
        (a.lookup RELEASE_DATE).isSome = true) l := by
  unfold get_ordered_character_list at hok
  obtain ⟨groups, hg, hok2⟩ := except_bind_ok hok
  obtain ⟨sorted, hsort, hok3⟩ := except_bind_ok hok2
  have hl : ((List.insertionSort (fun a b : Int => a ≤ b)
      (sorted.map Prod.fst)).map
        (fun t => (sorted.lookup t).getD [])).flatten = l := by
    simpa [pure, Except.pure] using hok3
  subst hl
  obtain ⟨hnodupF, hstampF, _, _⟩ := groupByStamp_spec mk records [] groups hg
  have hgnodup : (groups.map Prod.fst).Nodup := hnodupF (by simp)
  have hgstamp : ∀ tg ∈ groups, ∀ r ∈ tg.2,
      get_character_release_date_stamp mk r = .ok tg.1 := hstampF (by simp)
  have hf2 := sortGroups_spec groups sorted hsort
  have hkeq : groups.map Prod.fst = sorted.map Prod.fst :=
    forall₂_keys_eq (fun _ _ hr => hr.1) hf2
  have hsnodup : (sorted.map Prod.fst).Nodup := hkeq ▸ hgnodup
  have hsortedprop : ∀ t g', (t, g') ∈ sorted →
      (∀ r ∈ g', get_character_release_date_stamp mk r = .ok t) ∧
      List.Pairwise nameLe g' := by
    intro t g' hm
    obtain ⟨x, hx, hR⟩ := forall₂_mem_right hf2 hm
    obtain ⟨hfst, hperm, hpair, _⟩ := hR
    refine ⟨?_, hpair⟩
    intro r hr
    have hrx : r ∈ x.2 := hperm.mem_iff.1 hr
    have := hgstamp x hx r hrx
    rw [this, hfst]
  have hperm : (List.insertionSort (fun a b : Int => a ≤ b)
      (sorted.map Prod.fst)).Perm (sorted.map Prod.fst) :=
    List.perm_insertionSort _ _
  have hsortle : (List.insertionSort (fun a b : Int => a ≤ b)
      (sorted.map Prod.fst)).Pairwise (fun a b : Int => a ≤ b) :=
    List.sorted_insertionSort _ _
  have hstnodup : (List.insertionSort (fun a b : Int => a ≤ b)
      (sorted.map Prod.fst)).Nodup := hperm.nodup_iff.2 hsnodup
  have hstlt : (List.insertionSort (fun a b : Int => a ≤ b)
      (sorted.map Prod.fst)).Pairwise (fun a b : Int => a < b) :=
    (hsortle.and hstnodup).imp (fun h => lt_of_le_of_ne h.1 h.2)
  have hlookup : ∀ t ∈ List.insertionSort (fun a b : Int => a ≤ b)
      (sorted.map Prod.fst), ∃ g', sorted.lookup t = some g' ∧ (t, g') ∈ sorted := by
    intro t ht
    have hmem : t ∈ sorted.map Prod.fst := hperm.mem_iff.1 ht
    have hsome := lookupG_isSome_of_mem_keys hmem
    cases hl : sorted.lookup t with
    | none => rw [hl] at hsome; simp at hsome
    | some g' => exact ⟨g', rfl, lookupG_mem hl⟩
  constructor
  · rw [List.pairwise_flatten]
    constructor
    · intro G hG
      obtain ⟨t, ht, rfl⟩ := List.mem_map.1 hG
      obtain ⟨g', hlk, hmem⟩ := hlookup t ht
      rw [hlk, Option.getD_some]
      obtain ⟨hstamps, hpair⟩ := hsortedprop t g' hmem
      apply List.Pairwise.imp_of_mem ?_ hpair
      intro a b ha hb hab sa sb hsa hsb
      right
      have hta := hstamps a ha
      have htb := hstamps b hb
      have hsa' : sa = t := by
        have := hsa.symm.trans hta
        simpa using this
      have hsb' : sb = t := by
        have := hsb.symm.trans htb
        simpa using this
      exact ⟨hsa'.trans hsb'.symm, hab⟩
    · rw [List.pairwise_map]
      apply List.Pairwise.imp_of_mem ?_ hstlt
      intro t1 t2 ht1 ht2 hlt12 x hx y hy sa sb hsa hsb
      left
      obtain ⟨g1, hl1, hm1⟩ := hlookup t1 ht1
      obtain ⟨g2, hl2, hm2⟩ := hlookup t2 ht2
      rw [hl1, Option.getD_some] at hx
      rw [hl2, Option.getD_some] at hy
      have hsa' : sa = t1 := by
        have := hsa.symm.trans ((hsortedprop t1 g1 hm1).1 x hx)
        simpa using this
      have hsb' : sb = t2 := by
        have := hsb.symm.trans ((hsortedprop t2 g2 hm2).1 y hy)
        simpa using this
      rw [hsa', hsb']
      exact hlt12
  · rw [List.pairwise_flatten]
    constructor
    · intro G hG
      obtain ⟨t, ht, rfl⟩ := List.mem_map.1 hG
      obtain ⟨g', hlk, hmem⟩ := hlookup t ht
      rw [hlk, Option.getD_some]
      obtain ⟨hstamps, _⟩ := hsortedprop t g' hmem
      apply List.pairwise_of_forall_mem_list
      intro a ha b hb hdb
      cases hal : a.lookup RELEASE_DATE with
      | some s => simp [hal]
      | none =>
        have h1 : t < sys_maxsize :=
          stamp_lt_of_dated hmk hdb (hstamps b hb)
        have h2 : (Except.ok sys_maxsize : Except String Int) = .ok t :=
          (stamp_absent hal).symm.trans (hstamps a ha)
        have : sys_maxsize = t := by simpa using h2
        omega
    · rw [List.pairwise_map]
      apply List.Pairwise.imp_of_mem ?_ hstlt
      intro t1 t2 ht1 ht2 hlt12 x hx y hy hdy
      obtain ⟨g1, hl1, hm1⟩ := hlookup t1 ht1
      obtain ⟨g2, hl2, hm2⟩ := hlookup t2 ht2
      rw [hl1, Option.getD_some] at hx
      rw [hl2, Option.getD_some] at hy
      cases hal : x.lookup RELEASE_DATE with
      | some s => simp [hal]
      | none =>
        have h1 : t2 < sys_maxsize :=
          stamp_lt_of_dated hmk hdy ((hsortedprop t2 g2 hm2).1 y hy)
        have h2 : (Except.ok sys_maxsize : Except String Int) = .ok t1 :=
          (stamp_absent hal).symm.trans ((hsortedprop t1 g1 hm1).1 x hx)
        have : sys_maxsize = t1 := by simpa using h2
        omega

theorem ordered_character_list_mem (mk : Nat → Nat → Nat → Int)
    (records l : List Attrs)
    (hok : get_ordered_character_list mk records = .ok l) :
    ∀ r ∈ records, r ∈ l := by
  unfold get_ordered_character_list at hok
  obtain ⟨groups, hg, hok2⟩ := except_bind_ok hok
  obtain ⟨sorted, hsort, hok3⟩ := except_bind_ok hok2
  have hl : ((List.insertionSort (fun a b : Int => a ≤ b)
      (sorted.map Prod.fst)).map
        (fun t => (sorted.lookup t).getD [])).flatten = l := by
    simpa [pure, Except.pure] using hok3
  subst hl
  obtain ⟨hnodupF, _, _, hcover⟩ := groupByStamp_spec mk records [] groups hg
  have hgnodup : (groups.map Prod.fst).Nodup := hnodupF (by simp)
  have hf2 := sortGroups_spec groups sorted hsort
  have hkeq : groups.map Prod.fst = sorted.map Prod.fst :=
    forall₂_keys_eq (fun _ _ hr => hr.1) hf2
  have hsnodup : (sorted.map Prod.fst).Nodup := hkeq ▸ hgnodup
  have hperm : (List.insertionSort (fun a b : Int => a ≤ b)
      (sorted.map Prod.fst)).Perm (sorted.map Prod.fst) :=
    List.perm_insertionSort _ _
  intro r hr
  obtain ⟨t, g, hm, hrg⟩ := hcover r hr
  obtain ⟨y, hy, hR⟩ := forall₂_mem_left hf2 hm
  obtain ⟨hfst, hperm2, _, _⟩ := hR
  have hty : (t, y.2) ∈ sorted := by
    have he : (t, y.2) = y := Prod.ext hfst rfl
    rw [he]
    exact hy
  have hlk : sorted.lookup t = some y.2 := lookupG_eq_of_mem_nodup hsnodup hty
  have hrgy : r ∈ y.2 := hperm2.mem_iff.2 hrg
  have htk : t ∈ sorted.map Prod.fst := by
    rw [show t = y.1 from hfst]
    exact List.mem_map_of_mem Prod.fst hy
  have htstamps : t ∈ List.insertionSort (fun a b : Int => a ≤ b)
      (sorted.map Prod.fst) := hperm.mem_iff.2 htk
  refine List.mem_flatten.2 ⟨(sorted.lookup t).getD [],
    List.mem_map_of_mem _ htstamps, ?_⟩
  rw [hlk, Option.getD_some]
  exact hrgy

/-- Records used to instantiate the ordering theorem: two records sharing
the earlier date (names out of order), one later date, one unreleased. -/
def timelineRecords : List Attrs :=
  [[("nameCn", "c"), ("releaseDate", "February 16, 2022")],
   [("nameCn", "b"), ("releaseDate", "January 05, 2022")],
   [("nameCn", "a"), ("releaseDate", "January 05, 2022")],
   [("nameCn", "z")]]

/-- Ordering-pipeline output on `timelineRecords`: ascending stamp, names
ascending within the tied stamp, the unreleased record last. -/
def timelineOrdered : List Attrs :=
  [[("nameCn", "a"), ("releaseDate", "January 05, 2022")],
   [("nameCn", "b"), ("releaseDate", "January 05, 2022")],
   [("nameCn", "c"), ("releaseDate", "February 16, 2022")],
   [("nameCn", "z")]]

theorem ordered_character_list_sorted_witness :
    List.Pairwise (fun a b => ∀ sa sb,
      get_character_release_date_stamp mktimeStub a = .ok sa →
      get_character_release_date_stamp mktimeStub b = .ok sb →
      sa < sb ∨ (sa = sb ∧ nameLe a b)) timelineOrdered
    ∧ List.Pairwise (fun a b =>
        (b.lookup RELEASE_DATE).isSome = true →
        (a.lookup RELEASE_DATE).isSome = true) timelineOrdered :=
  ordered_character_list_sorted mktimeStub timelineRecords timelineOrdered
    mktimeStub_lt (by decide)

theorem merge_lookup_right_only {A B : InfoMap} {k : String} {v : Attrs}
    (hB : WFInfoMap B) (hA : A.lookup k = none) (hv : B.lookup k = some v) :
    (_merge_by_dict_key A B).lookup k = some v := by
  have hmem : k ∈ dictKeys B := by
    rw [← lookup_isSome_iff]
    simp [hv]
  have hwf : WFAttrs v := hB.2 (k, v) (lookup_mem hv)
  rw [lookup_merge, if_pos (Or.inr hmem)]
  unfold mergeValueFor
  rw [hv, hA]
  simp only [Option.getD_some, Option.getD_none]
  rw [show dictUpdateAll ([] : Attrs) ([] : Attrs) = [] from rfl]
  rw [dictUpdateAll_nil_of_nodup v hwf]

/-- C6 (amended): an entity present in only one source passes through the
merge without error and keeps exactly that source's attribute map, and
whenever the ordered-list exposure returns a list the entity's record is in
it.  The ordered-list step itself is not unconditional: a single-source
record lacking the `nameCn` attribute makes it raise KeyError (see the
counterexample), so the claim holds only up to that step succeeding. -/
theorem single_source_entity (A B : InfoMap) (k : String) (v : Attrs)
    (hB : WFInfoMap B) (hA : A.lookup k = none) (hv : B.lookup k = some v) :
    (_merge_by_dict_key A B).lookup k = some v
    ∧ ∀ mk l, get_ordered_character_list mk
        ((_merge_by_dict_key A B).map Prod.snd) = .ok l → v ∈ l := by
  have hlk := merge_lookup_right_only hB hA hv
  refine ⟨hlk, ?_⟩
  intro mk l hok
  have hvmem : v ∈ (_merge_by_dict_key A B).map Prod.snd :=
    List.mem_map_of_mem Prod.snd (lookup_mem hlk)
  exact ordered_character_list_mem mk _ l hok v hvmem

/-- One-key record set used to instantiate the single-source theorem: the
record carries the sort key, so the whole pipeline succeeds. -/
def soloSourceMap : InfoMap := [("夜兰", [("nameCn", "夜兰")])]

theorem single_source_entity_witness :
    ((_merge_by_dict_key [] soloSourceMap).lookup "夜兰" =
      some [("nameCn", "夜兰")])
    ∧ ([("nameCn", "夜兰")] : Attrs) ∈ [([("nameCn", "夜兰")] : Attrs)] := by
  have h := single_source_entity [] soloSourceMap "夜兰" [("nameCn", "夜兰")]
    (by decide) (by decide) (by decide)
  exact ⟨h.1, h.2 mktimeStub [[("nameCn", "夜兰")]] (by decide)⟩

/-- Single-source record set whose record has no `nameCn` attribute — what
the English source actually produces for an entity missing from the Chinese
wiki. -/
def laylaOnlyMap : InfoMap := [("Layla", [("nameEn", "Layla")])]

/-- C6 counterexample: an entity present in only one source can make the
ordered-list exposure raise instead of returning normally — here the merged
record has the entity with its single source's attributes, yet the ordering
step fails with KeyError because the record lacks `nameCn`. -/
theorem single_source_entity_counterexample :
    ((_merge_by_dict_key [] laylaOnlyMap).lookup "Layla" =
      some [("nameEn", "Layla")])
    ∧ get_ordered_character_list mktimeStub
        ((_merge_by_dict_key [] laylaOnlyMap).map Prod.snd) =
      .error "KeyError" := by
  exact ⟨by decide, by decide⟩

/-- An enemy hyperlink as the decoder sees it: `title` attribute (absent
gives Python `None`), visible text, and `href` attribute. -/
structure Link where
  title : Option String
  text : String
  href : String
deriving DecidableEq

/-- One enemy stub produced by `__extract_enemy_info`. -/
structure EnemyInfo where
  nameCn : String
  biligameUrl : String
deriving DecidableEq

/-- A data cell (`<td>`): the text of its `<center>` child if one exists, and
its hyperlinks in document order (`find_all("a")`). -/
structure Cell where
  centerText : Option String
  links : List Link
deriving DecidableEq

/-- A wikitable row: header text when a `<th>` exists, data cell when a
`<td>` exists (BeautifulSoup returns `None` otherwise; a present but empty
tag is still truthy). -/
structure Row where
  th : Option String
  td : Option Cell
deriving DecidableEq

/-- `ENEMY_PAGE_URL_PREFIX` from `period_info.py` line 10 (renamed). -/
def ENEMY_PAGE_URL_BASE : String := "https://wiki.biligame.com"

/-- `BILI_GAME_SPIRAL_ABYSS_ENEMY_LISTING_PAGE_URL` from `period_info.py`
line 11, the single page every period is decoded from. -/
def ABYSS_LISTING_PAGE_URL : String := "https://wiki.biligame.com/ys/渊月螺旋"

/-- Does `pat` start the list `l`? -/
def startsWithChars : List Char → List Char → Bool
  | _, [] => true
  | [], _ :: _ => false
  | c :: cs, d :: ds => c == d && startsWithChars cs ds

/-- Python's `pat in s` substring test. -/
def strContains (s pat : String) : Bool :=
  s.toList.tails.any (fun t => startsWithChars t pat.toList)

/-- Value of one hexadecimal digit, if the character is one. -/
def hexDigitVal (c : Char) : Option Nat :=
  if '0' ≤ c ∧ c ≤ '9' then some (c.toNat - 48)
  else if 'a' ≤ c ∧ c ≤ 'f' then some (c.toNat - 87)
  else if 'A' ≤ c ∧ c ≤ 'F' then some (c.toNat - 55)
  else none

/-- Collect the maximal leading run of `%XX` groups as byte values, returning
the remaining characters (helper of `pyUnquote`). -/
def pctGroups : List Char → List Nat × List Char
  | '%' :: h1 :: h2 :: rest =>
    match hexDigitVal h1, hexDigitVal h2 with
    | some a, some b =>
      let p := pctGroups rest
      ((a * 16 + b) :: p.1, p.2)
    | _, _ => ([], '%' :: h1 :: h2 :: rest)
  | l => ([], l)

/-- The Unicode replacement character, standing for an undecodable byte. -/
def replChar : Char := Char.ofNat 0xFFFD

/-- Fuelled UTF-8 decoder over byte values, one replacement character per
undecodable lead byte or truncated sequence — enough to model
`urllib.parse.unquote` exactly on well-encoded input. -/
def utf8DecodeF : Nat → List Nat → List Char
  | 0, _ => []
  | _, [] => []
  | fuel + 1, b :: bs =>
    if b < 0x80 then Char.ofNat b :: utf8DecodeF fuel bs
    else if 0xC2 ≤ b ∧ b ≤ 0xDF then
      match bs with
      | b2 :: rest =>
        if 0x80 ≤ b2 ∧ b2 ≤ 0xBF then
          Char.ofNat ((b - 0xC0) * 64 + (b2 - 0x80)) :: utf8DecodeF fuel rest
        else replChar :: utf8DecodeF fuel bs
      | [] => [replChar]
    else if 0xE0 ≤ b ∧ b ≤ 0xEF then
      match bs with
      | b2 :: b3 :: rest =>
        if (0x80 ≤ b2 ∧ b2 ≤ 0xBF) ∧ (0x80 ≤ b3 ∧ b3 ≤ 0xBF) then
          Char.ofNat ((b - 0xE0) * 4096 + (b2 - 0x80) * 64 + (b3 - 0x80)) ::
            utf8DecodeF fuel rest
        else replChar :: utf8DecodeF fuel bs
      | _ => [replChar]
    else if 0xF0 ≤ b ∧ b ≤ 0xF4 then
      match bs with
      | b2 :: b3 :: b4 :: rest =>
        if (0x80 ≤ b2 ∧ b2 ≤ 0xBF) ∧ (0x80 ≤ b3 ∧ b3 ≤ 0xBF) ∧
            (0x80 ≤ b4 ∧ b4 ≤ 0xBF) then
          Char.ofNat ((b - 0xF0) * 262144 + (b2 - 0x80) * 4096 +
            (b3 - 0x80) * 64 + (b4 - 0x80)) :: utf8DecodeF fuel rest
        else replChar :: utf8DecodeF fuel bs
      | _ => [replChar]
    else replChar :: utf8DecodeF fuel bs

/-- UTF-8 decode a byte list. -/
def utf8Decode (bs : List Nat) : List Char := utf8DecodeF bs.length bs

/-- Fuelled scan of `pyUnquote`: decode each maximal `%XX` run as UTF-8 and
copy every other character unchanged. -/
def pctScanF : Nat → List Char → List Char
  | 0, _ => []
  | _, [] => []
  | fuel + 1, c :: cs =>
    if c = '%' then
      match pctGroups (c :: cs) with
      | ([], _) => c :: pctScanF fuel cs
      | (bs, rem) => utf8Decode bs ++ pctScanF fuel rem
    else c :: pctScanF fuel cs

/-- `urllib.parse.unquote`: percent-decode `%XX` runs as UTF-8, leaving all
other characters (and malformed groups) unchanged. -/
def pyUnquote (s : String) : String :=
  String.mk (pctScanF s.toList.length s.toList)

/-- Recursion of `__deduplicated_enemy_info` with the `existing_name_cn` set
carried explicitly. -/
def dedupEnemyGo (seen : List String) : List EnemyInfo → List EnemyInfo
  | [] => []
  | info :: rest =>
    if info.nameCn ∈ seen then dedupEnemyGo seen rest
    else info :: dedupEnemyGo (info.nameCn :: seen) rest

/-- `__deduplicated_enemy_info` (period_info.py lines 123-169): drop every
stub whose `nameCn` has appeared before, keeping first occurrences in
order. -/
def __deduplicated_enemy_info (enemy_info : List EnemyInfo) : List EnemyInfo :=
  dedupEnemyGo [] enemy_info

/-- The pre-deduplication stub list of `__extract_enemy_info`: one stub per
hyperlink whose `title` attribute equals its visible text, in document
order. -/
def keptStubs (links : List Link) : List EnemyInfo :=
  links.filterMap (fun l =>
    if l.title = some l.text then
      some ⟨l.text, pyUnquote (ENEMY_PAGE_URL_BASE ++ l.href)⟩
    else none)

/-- `__extract_enemy_info` (period_info.py lines 172-215): keep the links
whose title equals their text, build a stub from each, deduplicate by
name. -/
def __extract_enemy_info (single_half : Cell) : List EnemyInfo :=
  __deduplicated_enemy_info (keptStubs single_half.links)

/-- Does the row have a header whose text contains the marker? -/
def headerHas (r : Row) (marker : String) : Bool :=
  match r.th with
  | some h => strContains h marker
  | none => false

/-- `__get_halves_in_order` (period_info.py lines 79-120): collect, in row
order, the data cell of every row satisfying
`row.th and half in row.th.get_text() and row.td` — the same function serves
both the first half and the second half. -/
def __get_halves_in_order (half : String) (rows : List Row) : List Cell :=
  rows.filterMap (fun r =>
    match r.th, r.td with
    | some h, some c => if strContains h half then some c else none
    | _, _ => none)

/-- Level cell parse of `__get_enemy_levels_in_order`:
`int(row.td.center.get_text().split(".")[1])`, with AttributeError when the
row has no data cell or the cell has no center element, IndexError when the
text has no dot, and ValueError when the piece after the dot is not an
integer. -/
def parseLevelCell (r : Row) : Except String Int := do
  let c ← exceptOfOption "AttributeError" r.td
  let t ← exceptOfOption "AttributeError" c.centerText
  let s ← nthE (splitOnDot t) 1
  exceptOfOption "ValueError" (pyInt s)

/-- `__get_enemy_levels_in_order` (period_info.py lines 14-76): the parsed
level of every row whose header contains the level marker, in row order. -/
def __get_enemy_levels_in_order (rows : List Row) : Except String (List Int) :=
  (rows.filter (fun r => headerHas r "怪物等级")).mapM parseLevelCell

/-- One chamber of the Period Record. -/
structure ChamberInfo where
  enemyLevel : Int
  firstHalf : List EnemyInfo
  secondHalf : List EnemyInfo
deriving DecidableEq

/-- One floor of the Period Record: exactly three chambers. -/
structure FloorInfo where
  chamber1 : ChamberInfo
  chamber2 : ChamberInfo
  chamber3 : ChamberInfo
deriving DecidableEq

/-- A Period Record: exactly four floors. -/
structure PeriodInfo where
  floor9 : FloorInfo
  floor10 : FloorInfo
  floor11 : FloorInfo
  floor12 : FloorInfo
deriving DecidableEq

/-- One chamber slot of `__get_period_info`: linear index `i` reads entry `i`
of the level list and of each half list, in that order, IndexError
propagating. -/
def chamberAt (levels : List Int) (fh sh : List (List EnemyInfo)) (i : Nat) :
    Except String ChamberInfo := do
  let lv ← nthE levels i
  let f ← nthE fh i
  let s ← nthE sh i
  pure ⟨lv, f, s⟩

/-- One floor of `__get_period_info`: chambers at linear indices `base`,
`base+1`, `base+2`, mirroring the literal indexing of the source. -/
def floorAt (levels : List Int) (fh sh : List (List EnemyInfo)) (base : Nat) :
    Except String FloorInfo := do
  let c1 ← chamberAt levels fh sh base
  let c2 ← chamberAt levels fh sh (base + 1)
  let c3 ← chamberAt levels fh sh (base + 2)
  pure ⟨c1, c2, c3⟩

/-- The slot-assembly part of `__get_period_info` (lines 274-396): floors 9,
10, 11, 12 built from linear indices 0-2, 3-5, 6-8, 9-11 — the literal
indexing of the source written as base offsets. -/
def assemblePeriodInfo (levels : List Int) (fh sh : List (List EnemyInfo)) :
    Except String PeriodInfo := do
  let f9 ← floorAt levels fh sh 0
  let f10 ← floorAt levels fh sh 3
  let f11 ← floorAt levels fh sh 6
  let f12 ← floorAt levels fh sh 9
  pure ⟨f9, f10, f11, f12⟩

/-- The pure decoding core of `__get_period_info` (lines 241-396) applied to
the wikitable rows of one period: collect both half lists, extract enemy
stubs from each cell, parse the level list, and assemble the record by
positional indexing. -/
def period_info_of_rows (rows : List Row) : Except String PeriodInfo := do
  let fh := (__get_halves_in_order "上半" rows).map __extract_enemy_info
  let sh := (__get_halves_in_order "下半" rows).map __extract_enemy_info
  let levels ← __get_enemy_levels_in_order rows
  assemblePeriodInfo levels fh sh

/-- Floor selector of the produced record by its JSON key number. -/
def floorOf (p : PeriodInfo) : Nat → Option FloorInfo
  | 9 => some p.floor9
  | 10 => some p.floor10
  | 11 => some p.floor11
  | 12 => some p.floor12
  | _ => none

/-- Chamber selector of a floor by its JSON key number. -/
def chamberOf (f : FloorInfo) : Nat → Option ChamberInfo
  | 1 => some f.chamber1
  | 2 => some f.chamber2
  | 3 => some f.chamber3
  | _ => none

/-- The chamber stored at `floor<f>.chamber<c>` of a Period Record. -/
def slotOf (p : PeriodInfo) (f c : Nat) : Option ChamberInfo :=
  (floorOf p f).bind (fun fl => chamberOf fl c)

/-- Is the computation a propagated error? -/
def isErr {ε α : Type} : Except ε α → Bool
  | .error _ => true
  | .ok _ => false

/-- The fetched listing page, abstracted as what the decoder reads from it:
the scoped wikitable rows of each period id (the DOM navigation of
`__get_all_wikitable_rows_by_period_id` is the external row provider). -/
structure AbyssPage where
  rowsOf : String → List Row

/-- `__get_period_info` with its network effect made explicit: every call
fetches the listing page once (`requests.get` on line 258) and decodes the
period's rows; the second component is the list of URLs fetched by the
call. -/
def __get_period_info (page : AbyssPage) (period_id : String) :
    Except String PeriodInfo × List String :=
  (period_info_of_rows (page.rowsOf period_id), [ABYSS_LISTING_PAGE_URL])

/-- `get_period_info_map` (period_info.py lines 399-423): one
`__get_period_info` call per configured period, keyed by period label; the
second component accumulates every URL fetched while building the map. -/
def get_period_info_map (page : AbyssPage)
    (periods : List (String × String)) :
    List (String × Except String PeriodInfo) × List String :=
  (periods.map (fun p => (p.1, (__get_period_info page p.2).1)),
   (periods.map (fun p => (__get_period_info page p.2).2)).flatten)

theorem nthE_of_lt {α : Type} {l : List α} {i : Nat} (h : i < l.length)
    (d : α) : nthE l i = .ok (l.getD i d) := by
  unfold nthE
  cases hq : l.get? i with
  | none =>
    rw [List.get?_eq_none] at hq
    omega
  | some v =>
    rw [List.getD_eq_get?, hq]
    rfl

theorem nthE_lt {α : Type} {l : List α} {i : Nat} {x : α}
    (h : nthE l i = .ok x) : i < l.length := by
  unfold nthE at h
  cases hq : l.get? i with
  | none => rw [hq] at h; simp at h
  | some v =>
    rcases List.get?_eq_some.1 hq with ⟨hlt, _⟩
    exact hlt

theorem chamberAt_of_lt {levels : List Int} {fh sh : List (List EnemyInfo)}
    (i : Nat) (h1 : i < levels.length) (h2 : i < fh.length)
    (h3 : i < sh.length) :
    chamberAt levels fh sh i =
      .ok ⟨levels.getD i 0, fh.getD i [], sh.getD i []⟩ := by
  unfold chamberAt
  rw [nthE_of_lt h1 0, nthE_of_lt h2 [], nthE_of_lt h3 []]
  rfl

/-- The chamber value that a successful decode stores at linear slot `i`. -/
def chamberVal (levels : List Int) (fh sh : List (List EnemyInfo))
    (i : Nat) : ChamberInfo :=
  ⟨levels.getD i 0, fh.getD i [], sh.getD i []⟩

/-- The Period Record that a successful decode assembles from the three
positional lists. -/
def periodVal (levels : List Int) (fh sh : List (List EnemyInfo)) :
    PeriodInfo :=
  ⟨⟨chamberVal levels fh sh 0, chamberVal levels fh sh 1,
    chamberVal levels fh sh 2⟩,
   ⟨chamberVal levels fh sh 3, chamberVal levels fh sh 4,
    chamberVal levels fh sh 5⟩,
   ⟨chamberVal levels fh sh 6, chamberVal levels fh sh 7,
    chamberVal levels fh sh 8⟩,
   ⟨chamberVal levels fh sh 9, chamberVal levels fh sh 10,
    chamberVal levels fh sh 11⟩⟩

theorem floorAt_val {levels : List Int} {fh sh : List (List EnemyInfo)}
    (base : Nat) (h1 : base + 2 < levels.length) (h2 : base + 2 < fh.length)
    (h3 : base + 2 < sh.length) :
    floorAt levels fh sh base =
      .ok ⟨chamberVal levels fh sh base, chamberVal levels fh sh (base + 1),
        chamberVal levels fh sh (base + 2)⟩ := by
  unfold floorAt
  rw [chamberAt_of_lt base (by omega) (by omega) (by omega),
    chamberAt_of_lt (base + 1) (by omega) (by omega) (by omega),
    chamberAt_of_lt (base + 2) (by omega) (by omega) (by omega)]
  rfl

theorem assemble_val {levels : List Int} {fh sh : List (List EnemyInfo)}
    (h1 : 12 ≤ levels.length) (h2 : 12 ≤ fh.length) (h3 : 12 ≤ sh.length) :
    assemblePeriodInfo levels fh sh = .ok (periodVal levels fh sh) := by
  unfold assemblePeriodInfo
  rw [floorAt_val 0 (by omega) (by omega) (by omega),
    floorAt_val 3 (by omega) (by omega) (by omega),
    floorAt_val 6 (by omega) (by omega) (by omega),
    floorAt_val 9 (by omega) (by omega) (by omega)]
  rfl

/-- C2: when the level list and both half lists come out with exactly 12
entries, the decode succeeds and linear slot `i` (0-based) lands at floor
`9 + i / 3`, chamber `1 + i % 3`, carrying entry `i` of the level list as
`enemyLevel` and the extracted enemy lists of cell `i` of each half list as
`firstHalf` and `secondHalf` — in particular level list
`[72, 74, 76, 80, 82, 85, 88, 90, 92, 95, 98, 100]` puts 85 at
`floor10.chamber3.enemyLevel` and 72 at `floor9.chamber1.enemyLevel`. -/
theorem decode_positional (rows : List Row) (levels : List Int)
    (hl : __get_enemy_levels_in_order rows = .ok levels)
    (h1 : levels.length = 12)
    (h2 : (__get_halves_in_order "上半" rows).length = 12)
    (h3 : (__get_halves_in_order "下半" rows).length = 12) :
    ∃ p, period_info_of_rows rows = .ok p ∧
      ∀ i, i < 12 →
        slotOf p (9 + i / 3) (1 + i % 3) =
          some ⟨levels.getD i 0,
            ((__get_halves_in_order "上半" rows).map
              __extract_enemy_info).getD i [],
            ((__get_halves_in_order "下半" rows).map
              __extract_enemy_info).getD i []⟩ := by
  have hfl : ((__get_halves_in_order "上半" rows).map
      __extract_enemy_info).length = 12 := by
    rw [List.length_map]
    exact h2
  have hsl : ((__get_halves_in_order "下半" rows).map
      __extract_enemy_info).length = 12 := by
    rw [List.length_map]
    exact h3
  refine ⟨periodVal levels
    ((__get_halves_in_order "上半" rows).map __extract_enemy_info)
    ((__get_halves_in_order "下半" rows).map __extract_enemy_info), ?_, ?_⟩
  · unfold period_info_of_rows
    rw [hl]
    exact assemble_val (by omega) (by omega) (by omega)
  · intro i hi
    interval_cases i <;> rfl

/-- A wikitable row carrying one enemy level, as the level scanner sees it. -/
def levelRow (lv : String) : Row :=
  ⟨some "怪物等级", some ⟨some (String.append "Lv." lv), []⟩⟩

/-- The level strings of the example period of the source docstring. -/
def demoLevelStrings : List String :=
  ["72", "74", "76", "80", "82", "85", "88", "90", "92", "95", "98", "100"]

/-- A first-half row with an empty data cell. -/
def fhRowDemo : Row := ⟨some "上半", some ⟨none, []⟩⟩

/-- A second-half row with an empty data cell. -/
def shRowDemo : Row := ⟨some "下半", some ⟨none, []⟩⟩

/-- A full row sequence for one period: 12 level rows followed by 12 rows per
half. -/
def demoRows : List Row :=
  demoLevelStrings.map levelRow ++ List.replicate 12 fhRowDemo ++
    List.replicate 12 shRowDemo

/-- The numeric levels of `demoRows`. -/
def demoLevels : List Int :=
  [72, 74, 76, 80, 82, 85, 88, 90, 92, 95, 98, 100]

theorem decode_positional_witness :
    ∃ p, period_info_of_rows demoRows = .ok p ∧
      slotOf p 10 3 = some ⟨85, [], []⟩ ∧
      slotOf p 9 1 = some ⟨72, [], []⟩ := by
  obtain ⟨p, hp, hslot⟩ := decode_positional demoRows demoLevels
    (by decide) (by decide) (by decide) (by decide)
  exact ⟨p, hp, hslot 5 (by omega), hslot 0 (by omega)⟩

/-- C3 (amended): the decode propagates a fatal IndexError — returning no
record at all, partial or otherwise — whenever any of the three positional
lists has FEWER than 12 entries; lists with MORE than 12 entries are,
however, silently accepted with the extra entries ignored (see the
counterexample), so only the too-short direction of the claim holds. -/
theorem decode_requires_twelve (rows : List Row) (levels : List Int)
    (hl : __get_enemy_levels_in_order rows = .ok levels)
    (hshort : levels.length < 12 ∨
      (__get_halves_in_order "上半" rows).length < 12 ∨
      (__get_halves_in_order "下半" rows).length < 12) :
    isErr (period_info_of_rows rows) = true := by
  cases hres : period_info_of_rows rows with
  | error e => rfl
  | ok p =>
    exfalso
    unfold period_info_of_rows at hres
    rw [hl] at hres
    have hres' : assemblePeriodInfo levels
        ((__get_halves_in_order "上半" rows).map __extract_enemy_info)
        ((__get_halves_in_order "下半" rows).map __extract_enemy_info) =
        .ok p := hres
    unfold assemblePeriodInfo at hres'
    obtain ⟨f9, h9, hr2⟩ := except_bind_ok hres'
    obtain ⟨f10, h10, hr3⟩ := except_bind_ok hr2
    obtain ⟨f11, h11, hr4⟩ := except_bind_ok hr3
    obtain ⟨f12, h12, _⟩ := except_bind_ok hr4
    unfold floorAt at h12
    obtain ⟨c1, hc1, hr5⟩ := except_bind_ok h12
    obtain ⟨c2, hc2, hr6⟩ := except_bind_ok hr5
    obtain ⟨c3, hc3, _⟩ := except_bind_ok hr6
    unfold chamberAt at hc3
    obtain ⟨lv, hlv, hr7⟩ := except_bind_ok hc3
    obtain ⟨fv, hfv, hr8⟩ := except_bind_ok hr7
    obtain ⟨sv, hsv, _⟩ := except_bind_ok hr8
    have hL : 9 + 2 < levels.length := nthE_lt hlv
    have hF : 9 + 2 < ((__get_halves_in_order "上半" rows).map
        __extract_enemy_info).length := nthE_lt hfv
    have hS : 9 + 2 < ((__get_halves_in_order "下半" rows).map
        __extract_enemy_info).length := nthE_lt hsv
    rw [List.length_map] at hF hS
    omega

/-- A row sequence whose level list has only 11 entries. -/
def demoRows11 : List Row :=
  (demoLevelStrings.take 11).map levelRow ++ List.replicate 12 fhRowDemo ++
    List.replicate 12 shRowDemo

theorem decode_requires_twelve_witness :
    isErr (period_info_of_rows demoRows11) = true :=
  decode_requires_twelve demoRows11
    [72, 74, 76, 80, 82, 85, 88, 90, 92, 95, 98] (by decide) (by decide)

/-- A row sequence whose level list has 13 entries and 12 cells per half. -/
def demoRows13 : List Row :=
  (demoLevelStrings ++ ["102"]).map levelRow ++
    List.replicate 12 fhRowDemo ++ List.replicate 12 shRowDemo

/-- C3 counterexample: a level list with MORE than 12 entries does not make
the decode fail — the literal indices 0..11 never touch the 13th entry, so a
full Period Record is returned and the extra level is silently ignored. -/
theorem decode_thirteen_levels_ok :
    __get_enemy_levels_in_order demoRows13 =
      .ok [72, 74, 76, 80, 82, 85, 88, 90, 92, 95, 98, 100, 102]
    ∧ isErr (period_info_of_rows demoRows13) = false := by
  exact ⟨by decide, by decide⟩

theorem find?_cons_predFalse {α : Type} (p : α → Bool) (a : α) (l : List α)
    (h : p a = false) : (a :: l).find? p = l.find? p := by
  simp [List.find?, h]

theorem find?_cons_predTrue {α : Type} (p : α → Bool) (a : α) (l : List α)
    (h : p a = true) : (a :: l).find? p = some a := by
  simp [List.find?, h]

theorem dedupEnemyGo_spec (l : List EnemyInfo) : ∀ seen : List String,
    ((dedupEnemyGo seen l).map EnemyInfo.nameCn).Nodup
    ∧ (∀ n, n ∈ (dedupEnemyGo seen l).map EnemyInfo.nameCn ↔
        n ∉ seen ∧ n ∈ l.map EnemyInfo.nameCn)
    ∧ (dedupEnemyGo seen l).Sublist l
    ∧ (∀ e ∈ dedupEnemyGo seen l, e.nameCn ∉ seen ∧
        l.find? (fun e' => e'.nameCn == e.nameCn) = some e) := by
  induction l with
  | nil =>
    intro seen
    refine ⟨by simp [dedupEnemyGo], by simp [dedupEnemyGo], ?_, by simp [dedupEnemyGo]⟩
    simp [dedupEnemyGo]
  | cons x rest ih =>
    intro seen
    by_cases hx : x.nameCn ∈ seen
    · rw [show dedupEnemyGo seen (x :: rest) = dedupEnemyGo seen rest from
        by simp [dedupEnemyGo, hx]]
      obtain ⟨ihn, ihm, ihs, ihf⟩ := ih seen
      refine ⟨ihn, ?_, ihs.cons x, ?_⟩
      · intro n
        rw [ihm n]
        constructor
        · rintro ⟨hns, hnr⟩
          exact ⟨hns, by simp [hnr]⟩
        · rintro ⟨hns, hnr⟩
          refine ⟨hns, ?_⟩
          simp only [List.map_cons, List.mem_cons] at hnr
          rcases hnr with rfl | hr
          · exact absurd hx hns
          · exact hr
      · intro e he
        obtain ⟨hes, hef⟩ := ihf e he
        refine ⟨hes, ?_⟩
        have hne : (fun e' => e'.nameCn == e.nameCn) x = false := by
          show (x.nameCn == e.nameCn) = false
          apply beq_false_of_ne
          intro heq
          exact hes (heq ▸ hx)
        rw [find?_cons_predFalse (fun e' => e'.nameCn == e.nameCn) x rest hne]
        exact hef
    · rw [show dedupEnemyGo seen (x :: rest) =
        x :: dedupEnemyGo (x.nameCn :: seen) rest from
        by simp [dedupEnemyGo, hx]]
      obtain ⟨ihn, ihm, ihs, ihf⟩ := ih (x.nameCn :: seen)
      refine ⟨?_, ?_, ihs.cons₂ x, ?_⟩
      · rw [List.map_cons, List.nodup_cons]
        refine ⟨?_, ihn⟩
        intro hmem
        have := (ihm x.nameCn).1 hmem
        exact this.1 (by simp)
      · intro n
        rw [List.map_cons, List.mem_cons, ihm n, List.map_cons]
        by_cases hn : n = x.nameCn
        · subst hn
          simp [hx]
        · simp [List.mem_cons, hn]
      · intro e he
        rcases List.mem_cons.1 he with rfl | hmem
        · refine ⟨hx, ?_⟩
          rw [find?_cons_predTrue (fun e' => e'.nameCn == e.nameCn) e rest
            (by show (e.nameCn == e.nameCn) = true; simp)]
        · obtain ⟨hes, hef⟩ := ihf e hmem
          have hene : e.nameCn ≠ x.nameCn := by
            intro heq
            exact hes (by simp [heq])
          refine ⟨fun hmem2 => hes (List.mem_cons_of_mem _ hmem2), ?_⟩
          have hne : (fun e' => e'.nameCn == e.nameCn) x = false := by
            show (x.nameCn == e.nameCn) = false
            apply beq_false_of_ne
            exact fun heq => hene heq.symm
          rw [find?_cons_predFalse (fun e' => e'.nameCn == e.nameCn) x rest hne]
          exact hef

theorem mem_keptStubs_names (links : List Link) (n : String) :
    (n ∈ (keptStubs links).map EnemyInfo.nameCn) ↔
      ∃ l ∈ links, l.title = some l.text ∧ l.text = n := by
  simp only [keptStubs, List.mem_map, List.mem_filterMap]
  constructor
  · rintro ⟨e, ⟨l, hl, hfl⟩, rfl⟩
    by_cases hc : l.title = some l.text
    · rw [if_pos hc] at hfl
      obtain rfl : (⟨l.text, pyUnquote (ENEMY_PAGE_URL_BASE ++ l.href)⟩ :
          EnemyInfo) = e := by simpa using hfl
      exact ⟨l, hl, hc, rfl⟩
    · rw [if_neg hc] at hfl
      simp at hfl
  · rintro ⟨l, hl, hc, rfl⟩
    exact ⟨⟨l.text, pyUnquote (ENEMY_PAGE_URL_BASE ++ l.href)⟩,
      ⟨l, hl, by rw [if_pos hc]⟩, rfl⟩

/-- C7: the extracted enemy list of a half cell has pairwise-distinct names;
a name appears in it exactly when some hyperlink of the cell has that name as
both its title attribute and its visible text; the list is a subsequence of
the pre-deduplication stub list (order preserved); and each extracted stub is
the FIRST stub of its name among the kept links — so excluded links
contribute nothing and a repeated name keeps only its first occurrence. -/
theorem extract_enemy_info_spec (single_half : Cell) :
    ((__extract_enemy_info single_half).map EnemyInfo.nameCn).Nodup
    ∧ (∀ n, n ∈ (__extract_enemy_info single_half).map EnemyInfo.nameCn ↔
        ∃ l ∈ single_half.links, l.title = some l.text ∧ l.text = n)
    ∧ (__extract_enemy_info single_half).Sublist (keptStubs single_half.links)
    ∧ ∀ e ∈ __extract_enemy_info single_half,
        (keptStubs single_half.links).find?
          (fun e' => e'.nameCn == e.nameCn) = some e := by
  obtain ⟨hn, hm, hs, hf⟩ :=
    dedupEnemyGo_spec (keptStubs single_half.links) []
  refine ⟨hn, ?_, hs, fun e he => (hf e he).2⟩
  intro n
  rw [show (__extract_enemy_info single_half).map EnemyInfo.nameCn =
    (dedupEnemyGo [] (keptStubs single_half.links)).map EnemyInfo.nameCn
    from rfl, hm n, ← mem_keptStubs_names]
  simp

/-- A half cell holding two identical enemy links and one incidental link
whose title differs from its text. -/
def dupLinkCell : Cell :=
  ⟨none, [⟨some "大型水史莱姆", "大型水史莱姆", "/ys/大型水史莱姆"⟩,
          ⟨some "大型水史莱姆", "大型水史莱姆", "/ys/大型水史莱姆"⟩,
          ⟨some "雷箭丘丘人", "详情", "/ys/雷箭丘丘人"⟩]⟩

theorem extract_enemy_info_spec_witness :
    ((__extract_enemy_info dupLinkCell).map EnemyInfo.nameCn).Nodup
    ∧ ("大型水史莱姆" ∈ (__extract_enemy_info dupLinkCell).map
        EnemyInfo.nameCn)
    ∧ ¬ ("雷箭丘丘人" ∈ (__extract_enemy_info dupLinkCell).map
        EnemyInfo.nameCn) := by
  have h := extract_enemy_info_spec dupLinkCell
  refine ⟨h.1, (h.2.1 "大型水史莱姆").2 ?_, ?_⟩
  · exact ⟨⟨some "大型水史莱姆", "大型水史莱姆", "/ys/大型水史莱姆"⟩,
      by decide, by decide, rfl⟩
  · decide

/-- Modelled from the spec: the first-half collection rule as the claim reads
it — every row whose header text contains the marker contributes, with no
further condition on the data cell. -/
def specFirstHalfRows (half : String) (rows : List Row) : List Row :=
  rows.filter (fun r => headerHas r half)

/-- C8 (amended): both half lists are produced by one rule — collect, in row
order, the data cell of every row whose header exists, contains the marker,
AND whose data cell exists; the data-cell filter applies to the first half
exactly as to the second (the code runs the same function for 上半 and
下半). -/
theorem get_halves_characterization (half : String) (rows : List Row) :
    __get_halves_in_order half rows =
      (rows.filter (fun r => headerHas r half && r.td.isSome)).filterMap
        (fun r => r.td) := by
  induction rows with
  | nil => rfl
  | cons r rest ih =>
    cases hth : r.th with
    | none =>
      rw [show __get_halves_in_order half (r :: rest) =
          __get_halves_in_order half rest from by
        simp [__get_halves_in_order, List.filterMap_cons, hth]]
      rw [ih, List.filter_cons, if_neg (by simp [headerHas, hth])]
    | some h =>
      cases htd : r.td with
      | none =>
        rw [show __get_halves_in_order half (r :: rest) =
            __get_halves_in_order half rest from by
          simp [__get_halves_in_order, List.filterMap_cons, hth, htd]]
        rw [ih, List.filter_cons, if_neg (by simp [htd])]
      | some c =>
        by_cases hc : strContains h half
        · rw [show __get_halves_in_order half (r :: rest) =
              c :: __get_halves_in_order half rest from by
            simp [__get_halves_in_order, List.filterMap_cons, hth, htd, hc]]
          rw [ih, List.filter_cons,
            if_pos (by simp [headerHas, hth, htd, hc]),
            List.filterMap_cons, htd]
        · rw [show __get_halves_in_order half (r :: rest) =
              __get_halves_in_order half rest from by
            simp [__get_halves_in_order, List.filterMap_cons, hth, htd, hc]]
          rw [ih, List.filter_cons, if_neg (by simp [headerHas, hth, hc])]

/-- A row with a first-half header but no data cell. -/
def headerOnlyRow : Row := ⟨some "上半", none⟩

/-- C8 counterexample: a row whose header contains the first-half marker but
that has no data cell is dropped by the code, while the claim's first-half
rule (no condition on the data cell) counts it — the two lists disagree in
length on this one-row input. -/
theorem get_halves_counterexample :
    (__get_halves_in_order "上半" [headerOnlyRow]).length = 0
    ∧ (specFirstHalfRows "上半" [headerOnlyRow]).length = 1 := by
  exact ⟨by decide, by decide⟩

/-- C9: building the period catalog performs one listing-page fetch PER
configured period — the fetch log has exactly one entry (always the same
listing URL) for each period, `N` fetches for `N` periods, not the single
shared fetch the docstring's "O(1) network I/O" note promises. -/
theorem period_info_map_fetch_count (page : AbyssPage)
    (periods : List (String × String)) :
    ((get_period_info_map page periods).2).length = periods.length
    ∧ ∀ u ∈ (get_period_info_map page periods).2,
        u = ABYSS_LISTING_PAGE_URL := by
  constructor
  · induction periods with
    | nil => rfl
    | cons p rest ih =>
      simp only [get_period_info_map, __get_period_info, List.map_cons,
        List.flatten_cons, List.length_append, List.length_cons,
        List.length_nil] at ih ⊢
      omega
  · intro u hu
    simp only [get_period_info_map, __get_period_info] at hu
    rw [List.mem_flatten] at hu
    obtain ⟨l, hl, hul⟩ := hu
    rw [List.mem_map] at hl
    obtain ⟨p, _, rfl⟩ := hl
    simpa using hul
